import Mathlib

/-!
Shallow embedding of the `FilesystemSearch` class (filesystem-search.ts) of
easy-obsidian-mcp: vault-wide content search, fuzzy search and link-graph
queries over markdown documents.  A document corpus is modelled as the list
of files produced by `getAllMarkdownFiles` (root-relative paths in
enumeration order); `content = none` models a file whose read fails.
JavaScript string primitives (`includes`, `split`, `replace`, `toLowerCase`,
`path.basename`) and the regex scans of the source are embedded as
executable functions on `List Char`; recursions that consume a suffix of
the input carry a fuel argument instantiated with a bound that the scan can
never exhaust (each step consumes at least one character), so that closed
evaluations reduce definitionally.
-/

namespace FilesystemSearch

/-- ASCII whitespace recognised by the embedding of the regex class `\s`
(the corpus claims only exercise ASCII input). -/
def isWsChar (c : Char) : Bool :=
  c = ' ' || c = '\t' || c = '\n' || c = '\r' || c = '\x0b' || c = '\x0c'

/-- `startsWithL s pat` : `pat` occurs at the start of `s`. -/
def startsWithL : List Char → List Char → Bool
  | _, [] => true
  | [], _ :: _ => false
  | c :: cs, p :: ps => c = p && startsWithL cs ps

/-- `containsSub pat s` : `pat` occurs somewhere in `s`
(JavaScript `String.prototype.includes`). -/
def containsSub (pat : List Char) : List Char → Bool
  | [] => startsWithL [] pat
  | c :: cs => startsWithL (c :: cs) pat || containsSub pat cs

/-- JavaScript `s.includes(pat)`. -/
def jsIncludes (s pat : String) : Bool := containsSub pat.data s.data

/-- `endsWithL s pat` : `pat` occurs at the end of `s`. -/
def endsWithL (s pat : List Char) : Bool := startsWithL s.reverse pat.reverse

/-- JavaScript `s.replace(pat, repl)` with a string pattern: replace the
first occurrence only. -/
def replaceFirstL (pat repl : List Char) : List Char → List Char
  | [] => if startsWithL [] pat then repl else []
  | c :: cs =>
    if startsWithL (c :: cs) pat then repl ++ (c :: cs).drop pat.length
    else c :: replaceFirstL pat repl cs

/-- JavaScript `s.replace(pat, repl)` (first occurrence) on `String`. -/
def jsReplaceFirst (s pat repl : String) : String :=
  ⟨replaceFirstL pat.data repl.data s.data⟩

/-- Split a character list on a separator character, keeping empty pieces
(JavaScript `s.split(sep)` semantics). -/
def splitOnCharL (sep : Char) : List Char → List (List Char)
  | [] => [[]]
  | c :: cs =>
    if c = sep then [] :: splitOnCharL sep cs
    else
      match splitOnCharL sep cs with
      | [] => [[c]]
      | t :: ts => (c :: t) :: ts

/-- JavaScript `content.split('\n')`. -/
def jsSplitLines (s : String) : List String :=
  (splitOnCharL '\n' s.data).map (fun l => ⟨l⟩)

mutual

/-- State of JavaScript `s.split(/\s+/)` while inside a token:
`acc` holds the reversed characters of the current token. -/
def splitWsGo (acc : List Char) : List Char → List String
  | [] => [⟨acc.reverse⟩]
  | c :: cs =>
    if isWsChar c then (⟨acc.reverse⟩ : String) :: splitWsSkip cs
    else splitWsGo (c :: acc) cs

/-- State of JavaScript `s.split(/\s+/)` while consuming a whitespace run. -/
def splitWsSkip : List Char → List String
  | [] => [""]
  | c :: cs => if isWsChar c then splitWsSkip cs else splitWsGo [c] cs

end

/-- JavaScript `query.split(/\s+/)` (used for the fuzzy query tokens). -/
def jsSplitWs (s : String) : List String := splitWsGo [] s.data

/-- Lowercasing as JavaScript `toLowerCase` on ASCII input. -/
def lowerStr (s : String) : String := ⟨s.data.map Char.toLower⟩

/-- Node `path.basename(p)` for the forward-slash relative paths the walker
produces (no trailing separator). -/
def jsBasename (p : String) : String :=
  match (splitOnCharL '/' p.data).reverse with
  | [] => p
  | last :: _ => ⟨last⟩

/-- Node `path.basename(p, ext)`: the basename with `ext` stripped when the
basename ends with `ext` and is not equal to it. -/
def jsBasenameExt (p ext : String) : String :=
  let b := jsBasename p
  if b ≠ ext ∧ endsWithL b.data ext.data then
    ⟨b.data.take (b.data.length - ext.data.length)⟩
  else b

/-- Insertion-ordered deduplication: `Array.from(new Set(links))`. -/
def dedupKeepFirstGo (seen : List String) : List String → List String
  | [] => []
  | x :: xs =>
    if seen.contains x then dedupKeepFirstGo seen xs
    else x :: dedupKeepFirstGo (x :: seen) xs

/-- `Array.from(new Set(links))` for string lists. -/
def dedupKeepFirst (l : List String) : List String := dedupKeepFirstGo [] l

/-- A match of the link regex `\[\[([^\]]+)\]\]` anchored at the start of
`s`: after `[[`, a maximal nonempty run of characters other than `]`
followed by `]]`; yields the capture and the remainder after the match. -/
def linkAt (s : List Char) : Option (String × List Char) :=
  match s with
  | '[' :: '[' :: rest =>
    let run := rest.takeWhile (fun c => c ≠ ']')
    if !run.isEmpty && startsWithL (rest.drop run.length) [']', ']'] then
      some (⟨run⟩, rest.drop (run.length + 2))
    else none
  | _ => none

/-- The global regex scan of `extractLinks`: try a match at each position,
resuming after a successful match, advancing one character otherwise.
Fuel bounds the number of scan steps; each step consumes at least one
character, so `length + 1` fuel never runs out. -/
def extractLinksGo : Nat → List Char → List String
  | 0, _ => []
  | _ + 1, [] => []
  | fuel + 1, c :: cs =>
    match linkAt (c :: cs) with
    | some (t, rest) => t :: extractLinksGo fuel rest
    | none => extractLinksGo fuel cs

/-- `extractLinks`: every `[[...]]` occurrence, captured text verbatim, in
order of appearance, duplicates retained. -/
def extractLinks (content : String) : List String :=
  extractLinksGo (content.data.length + 1) content.data

/-- Character class `[\w\-\_\/]` of the inline tag regex. -/
def isTagChar (c : Char) : Bool :=
  c.isAlphanum || c = '_' || c = '-' || c = '/'

/-- A match of the inline tag regex (`#` then one or more of `[\w\-\_\/]`)
anchored at the start of `s`, keeping the `#` in the capture. -/
def hashAt (s : List Char) : Option (String × List Char) :=
  match s with
  | '#' :: rest =>
    let run := rest.takeWhile isTagChar
    if run.isEmpty then none else some (⟨'#' :: run⟩, rest.drop run.length)
  | _ => none

/-- The global regex scan for inline hash tags: try a match at each
position, resuming after a match, advancing one character otherwise. -/
def extractHashGo : Nat → List Char → List String
  | 0, _ => []
  | _ + 1, [] => []
  | fuel + 1, c :: cs =>
    match hashAt (c :: cs) with
    | some (t, rest) => t :: extractHashGo fuel rest
    | none => extractHashGo fuel cs

/-- All inline `#tag` matches of a document body, `#` included. -/
def extractHashTags (content : String) : List String :=
  extractHashGo (content.data.length + 1) content.data

/-- Index of the first occurrence of `pat` in a character list. -/
def findSubIdx (pat : List Char) : List Char → Option Nat
  | [] => if startsWithL [] pat then some 0 else none
  | c :: cs =>
    if startsWithL (c :: cs) pat then some 0
    else (findSubIdx pat cs).map (· + 1)

/-- The capture of the frontmatter regex (anchored `---` newline, then a
lazy `[\s\S]` star capture, then newline `---`): when the document starts
with `---` on its own line, the (lazily shortest) text up to the next
newline-`---`. -/
def frontmatterBlock (content : String) : Option (List Char) :=
  if startsWithL content.data ['-', '-', '-', '\n'] then
    let rest := content.data.drop 4
    (findSubIdx ['\n', '-', '-', '-'] rest).map (fun i => rest.take i)
  else none

/-- JavaScript values produced by `JSON.parse` (numbers kept as their
lexeme, which the claims never inspect numerically). -/
inductive JValue where
  | str (s : String)
  | num (raw : String)
  | bool (b : Bool)
  | null
  | arr (elems : List JValue)
  | obj (fields : List (String × JValue))
deriving Repr, Inhabited

/-- JSON whitespace. -/
def isJsonWs (c : Char) : Bool := c = ' ' || c = '\t' || c = '\n' || c = '\r'

/-- Drop leading JSON whitespace. -/
def skipJsonWs (s : List Char) : List Char := s.dropWhile isJsonWs

/-- Hex digit value, if any. -/
def hexVal (c : Char) : Option Nat :=
  if c.isDigit then some (c.toNat - '0'.toNat)
  else if 'a' ≤ c ∧ c ≤ 'f' then some (c.toNat - 'a'.toNat + 10)
  else if 'A' ≤ c ∧ c ≤ 'F' then some (c.toNat - 'A'.toNat + 10)
  else none

/-- JSON string body after the opening quote: characters and escapes up to
the closing quote. -/
def parseJStr : Nat → List Char → Option (List Char × List Char)
  | 0, _ => none
  | _ + 1, [] => none
  | fuel + 1, c :: rest =>
    if c = '"' then some ([], rest)
    else if c = '\\' then
      match rest with
      | [] => none
      | e :: rest' =>
        let dec : Option (Char × List Char) :=
          if e = '"' then some ('"', rest')
          else if e = '\\' then some ('\\', rest')
          else if e = '/' then some ('/', rest')
          else if e = 'b' then some ('\x08', rest')
          else if e = 'f' then some ('\x0c', rest')
          else if e = 'n' then some ('\n', rest')
          else if e = 'r' then some ('\r', rest')
          else if e = 't' then some ('\t', rest')
          else if e = 'u' then
            match rest' with
            | h1 :: h2 :: h3 :: h4 :: rest2 =>
              match hexVal h1, hexVal h2, hexVal h3, hexVal h4 with
              | some a, some b, some c', some d =>
                some (Char.ofNat (((a * 16 + b) * 16 + c') * 16 + d), rest2)
              | _, _, _, _ => none
            | _ => none
          else none
        match dec with
        | some (ch, r) => (parseJStr fuel r).map (fun p => (ch :: p.1, p.2))
        | none => none
    else if c.toNat < 32 then none
    else (parseJStr fuel rest).map (fun p => (c :: p.1, p.2))

/-- JSON number: optional sign, integer part without a spurious leading
zero, optional fraction, optional exponent; the lexeme is kept. -/
def parseJNum (s : List Char) : Option (JValue × List Char) :=
  let sign : List Char × List Char :=
    match s with
    | '-' :: r => (['-'], r)
    | _ => ([], s)
  let intPart := sign.2.takeWhile Char.isDigit
  let s2 := sign.2.drop intPart.length
  if intPart.isEmpty then none
  else if intPart.length > 1 ∧ intPart.headD ' ' = '0' then none
  else
    let fracStep : Option (List Char × List Char) :=
      match s2 with
      | '.' :: r =>
        let ds := r.takeWhile Char.isDigit
        if ds.isEmpty then none else some ('.' :: ds, r.drop ds.length)
      | _ => some ([], s2)
    match fracStep with
    | none => none
    | some (fracPart, s3) =>
      let expStep : Option (List Char × List Char) :=
        match s3 with
        | e :: r =>
          if e = 'e' ∨ e = 'E' then
            let r1 : List Char × List Char :=
              match r with
              | sc :: r' => if sc = '+' ∨ sc = '-' then ([sc], r') else ([], r)
              | [] => ([], r)
            let ds := r1.2.takeWhile Char.isDigit
            if ds.isEmpty then none
            else some (e :: (r1.1 ++ ds), r1.2.drop ds.length)
          else some ([], s3)
        | [] => some ([], s3)
      match expStep with
      | none => none
      | some (expPart, s4) =>
        some (.num ⟨sign.1 ++ intPart ++ fracPart ++ expPart⟩, s4)

mutual

/-- Recursive-descent JSON value parser (`JSON.parse` grammar); leading
whitespace is skipped.  Fuel bounds the descent; every recursive call
follows the consumption of at least one character. -/
def parseJValue : Nat → List Char → Option (JValue × List Char)
  | 0, _ => none
  | fuel + 1, s =>
    match skipJsonWs s with
    | '"' :: rest => (parseJStr (fuel + 1) rest).map (fun p => (.str ⟨p.1⟩, p.2))
    | '[' :: rest =>
      match skipJsonWs rest with
      | ']' :: rest' => some (.arr [], rest')
      | rest' => (parseJArrItems fuel rest').map (fun p => (.arr p.1, p.2))
    | '{' :: rest =>
      match skipJsonWs rest with
      | '}' :: rest' => some (.obj [], rest')
      | rest' => (parseJObjItems fuel rest').map (fun p => (.obj p.1, p.2))
    | 't' :: 'r' :: 'u' :: 'e' :: rest => some (.bool true, rest)
    | 'f' :: 'a' :: 'l' :: 's' :: 'e' :: rest => some (.bool false, rest)
    | 'n' :: 'u' :: 'l' :: 'l' :: rest => some (.null, rest)
    | s' => parseJNum s'

/-- One or more comma-separated array items, ending at `]`. -/
def parseJArrItems : Nat → List Char → Option (List JValue × List Char)
  | 0, _ => none
  | fuel + 1, s =>
    match parseJValue fuel s with
    | none => none
    | some (v, rest) =>
      match skipJsonWs rest with
      | ',' :: rest' =>
        (parseJArrItems fuel rest').map (fun p => (v :: p.1, p.2))
      | ']' :: rest' => some ([v], rest')
      | _ => none

/-- One or more comma-separated `"key": value` object fields, ending at
`}`. -/
def parseJObjItems : Nat → List Char → Option (List (String × JValue) × List Char)
  | 0, _ => none
  | fuel + 1, s =>
    match skipJsonWs s with
    | '"' :: rest =>
      match parseJStr (fuel + 1) rest with
      | none => none
      | some (key, rest1) =>
        match skipJsonWs rest1 with
        | ':' :: rest2 =>
          match parseJValue fuel rest2 with
          | none => none
          | some (v, rest3) =>
            match skipJsonWs rest3 with
            | ',' :: rest4 =>
              (parseJObjItems fuel rest4).map
                (fun p => ((⟨key⟩, v) :: p.1, p.2))
            | '}' :: rest4 => some ([(⟨key⟩, v)], rest4)
            | _ => none
        | _ => none
    | _ => none

end

/-- `JSON.parse(s)`: parse one value and require only whitespace after it;
`none` models a thrown `SyntaxError`. -/
def jsJsonParse (s : String) : Option JValue :=
  match parseJValue (s.data.length + 2) s.data with
  | some (v, rest) => if (skipJsonWs rest).isEmpty then some v else none
  | none => none

mutual

/-- Value equality on `JValue`.  JS `Set` compares primitives by value and
objects by identity; the corpus dedups only primitive tags, where the two
notions coincide. -/
def jvBEq : JValue → JValue → Bool
  | .str x, .str y => x = y
  | .num x, .num y => x = y
  | .bool x, .bool y => x = y
  | .null, .null => true
  | .arr xs, .arr ys => jvListBEq xs ys
  | .obj xs, .obj ys => jvObjBEq xs ys
  | _, _ => false

/-- Pointwise equality of `JValue` lists. -/
def jvListBEq : List JValue → List JValue → Bool
  | [], [] => true
  | x :: xs, y :: ys => jvBEq x y && jvListBEq xs ys
  | _, _ => false

/-- Pointwise equality of `JValue` field lists. -/
def jvObjBEq : List (String × JValue) → List (String × JValue) → Bool
  | [], [] => true
  | (k, x) :: xs, (k', y) :: ys => k = k' && jvBEq x y && jvObjBEq xs ys
  | _, _ => false

end

/-- Insertion-ordered deduplication of a `JValue` list (`Set` semantics of
the `tags` set). -/
def dedupJGo (seen : List JValue) : List JValue → List JValue
  | [] => []
  | x :: xs =>
    if seen.any (jvBEq x) then dedupJGo seen xs
    else x :: dedupJGo (x :: seen) xs

/-- `Array.from` of the tags `Set`, first occurrences kept. -/
def dedupJKeepFirst (l : List JValue) : List JValue := dedupJGo [] l

/-- Escape one character as `JSON.stringify` does inside a string. -/
def jsonEscapeChar (c : Char) : List Char :=
  if c = '"' then ['\\', '"']
  else if c = '\\' then ['\\', '\\']
  else if c = '\n' then ['\\', 'n']
  else if c = '\r' then ['\\', 'r']
  else if c = '\t' then ['\\', 't']
  else if c = '\x08' then ['\\', 'b']
  else if c = '\x0c' then ['\\', 'f']
  else [c]

/-- `JSON.stringify` of a string, quotes included. -/
def stringifyStr (s : String) : List Char :=
  '"' :: (s.data.flatMap jsonEscapeChar ++ ['"'])

mutual

/-- `JSON.stringify` (no spacing). -/
def stringifyJ : JValue → List Char
  | .str s => stringifyStr s
  | .num raw => raw.data
  | .bool true => ['t', 'r', 'u', 'e']
  | .bool false => ['f', 'a', 'l', 's', 'e']
  | .null => ['n', 'u', 'l', 'l']
  | .arr l => '[' :: (stringifyArr l ++ [']'])
  | .obj fs => "\x7b".data ++ stringifyObj fs ++ "\x7d".data

/-- Comma-joined stringified array elements. -/
def stringifyArr : List JValue → List Char
  | [] => []
  | [x] => stringifyJ x
  | x :: y :: xs => stringifyJ x ++ ',' :: stringifyArr (y :: xs)

/-- Comma-joined stringified object fields. -/
def stringifyObj : List (String × JValue) → List Char
  | [] => []
  | [(k, x)] => stringifyStr k ++ ':' :: stringifyJ x
  | (k, x) :: f :: fs =>
    stringifyStr k ++ ':' :: stringifyJ x ++ ',' :: stringifyObj (f :: fs)

end

/-- `JSON.stringify(frontmatter)` for a frontmatter object. -/
def stringifyFm (fm : List (String × JValue)) : String :=
  ⟨"\x7b".data ++ stringifyObj fm ++ "\x7d".data⟩

/-- JS truthiness of a parsed value (`if (frontmatter.tags)`): zero-valued
number lexemes, the empty string, `false` and `null` are falsy. -/
def numLexZero (raw : String) : Bool :=
  let mant := raw.data.takeWhile (fun c => c ≠ 'e' ∧ c ≠ 'E')
  mant.all (fun c => !c.isDigit || c = '0')

/-- JS truthiness of a `JValue`. -/
def jvTruthy : JValue → Bool
  | .str s => s ≠ ""
  | .num raw => !numLexZero raw
  | .bool b => b
  | .null => false
  | .arr _ => true
  | .obj _ => true

/-- The quote-stripping regex of the frontmatter parser (a leading single
or double quote and a trailing one are removed, independently). -/
def stripQuotesL (v : List Char) : List Char :=
  let isQ : Char → Bool := fun c => c = '"' || c = '\''
  let v1 := match v with
    | c :: rest => if isQ c then rest else v
    | [] => []
  match v1.reverse with
  | c :: rest => if isQ c then rest.reverse else v1
  | [] => v1

/-- JavaScript `trim` on ASCII input. -/
def trimL (s : List Char) : List Char :=
  ((s.dropWhile isWsChar).reverse.dropWhile isWsChar).reverse

/-- `obj[key] = v` on the frontmatter object: keys keep their first
position, the value is overwritten. -/
def assocSet (l : List (String × JValue)) (k : String) (v : JValue) :
    List (String × JValue) :=
  if l.any (fun p => p.1 = k) then
    l.map (fun p => if p.1 = k then (k, v) else p)
  else l ++ [(k, v)]

/-- One `key: value` line of the frontmatter block: the key is the text
before the first colon (which must not be at position 0), quotes are
stripped from the value, and a value starting with `[` or a brace is
attempted as JSON with fallback to the raw string. -/
def fmParseLine (fm : List (String × JValue)) (line : List Char) :
    List (String × JValue) :=
  match line.findIdx? (· = ':') with
  | some i =>
    if i > 0 then
      let key := trimL (line.take i)
      let value := trimL (line.drop (i + 1))
      let clean := stripQuotesL value
      let v : JValue :=
        if startsWithL clean ['['] || startsWithL clean "\x7b".data then
          match jsJsonParse ⟨clean⟩ with
          | some j => j
          | none => .str ⟨clean⟩
        else .str ⟨clean⟩
      assocSet fm ⟨key⟩ v
    else fm
  | none => fm

/-- `extractFrontmatter`: the delimited block parsed line by line; absence
of the block (or any malformed line) degrades to the empty mapping. -/
def extractFrontmatter (content : String) : List (String × JValue) :=
  match frontmatterBlock content with
  | none => []
  | some block => (splitOnCharL '\n' block).foldl fmParseLine []

/-- The value of the frontmatter `tags` field, if any. -/
def fmLookup (fm : List (String × JValue)) (k : String) : Option JValue :=
  (fm.find? (fun p => p.1 = k)).map (fun p => p.2)

/-- `extractTags`: the truthy frontmatter `tags` field (array elements as
given, a string as itself) unioned with the inline hash tags, as an
insertion-ordered set.  Elements are JS values: a non-string frontmatter
array element enters the set as is. -/
def extractTags (content : String) : List JValue :=
  let fm := extractFrontmatter content
  let fmTags : List JValue :=
    match fmLookup fm "tags" with
    | some v =>
      if jvTruthy v then
        match v with
        | .arr l => l
        | .str s => [.str s]
        | _ => []
      else []
    | none => []
  dedupJKeepFirst (fmTags ++ (extractHashTags content).map JValue.str)

/-- A corpus document: the root-relative path yielded by the directory walk
and its text; `content = none` models a file whose read fails. -/
structure VDoc where
  path : String
  content : Option String
deriving Repr, DecidableEq

/-- The file enumeration `getAllMarkdownFiles` returns (paths in walk
order; read failures do not remove a file from the enumeration). -/
def corpusFiles (corpus : List VDoc) : List String := corpus.map (fun d => d.path)

/-- A document is readable when its read succeeds. -/
def readable (d : VDoc) : Bool := d.content.isSome

/-- The link-resolution predicate of `buildLinkGraph`: `f` matches `link`
when its basename with `.md` stripped equals the link, or `f` is the link
with `.md` appended, or `f` ends with `/link.md`. -/
def resolvesTo (f link : String) : Bool :=
  jsBasenameExt f ".md" = link || f = link ++ ".md" ||
    endsWithL f.data ('/' :: (link ++ ".md").data)

/-- `files.find(...)` of `buildLinkGraph`: the first enumerated file the
link resolves to. -/
def resolveLink (files : List String) (link : String) : Option String :=
  files.find? (fun f => resolvesTo f link)

/-- The two adjacency caches: `linkCache` maps a document to the set of its
raw link references; `backlinksCache` maps a document to the set of
documents whose links resolve to it. -/
structure LinkGraph where
  fwd : List (String × List String)
  bwd : List (String × List String)
deriving Repr, DecidableEq

/-- `cache.get(k) || []` as an insertion-ordered list (the association
list holds each key once, as a `Map` does). -/
def adjGet (m : List (String × List String)) (k : String) : List String :=
  match m with
  | [] => []
  | p :: ps => if p.1 = k then p.2 else adjGet ps k

/-- `cache.set(k, v)`. -/
def adjSet (m : List (String × List String)) (k : String) (v : List String) :
    List (String × List String) :=
  if m.any (fun p => p.1 = k) then
    m.map (fun p => if p.1 = k then (k, v) else p)
  else m ++ [(k, v)]

/-- `set.add(x)` on an insertion-ordered set. -/
def setAdd (s : List String) (x : String) : List String :=
  if s.contains x then s else s ++ [x]

/-- Add `x` to the set stored at `k`, creating the entry if missing
(`if (!cache.has(k)) cache.set(k, new Set()); cache.get(k)!.add(x)`). -/
def adjAddElem (m : List (String × List String)) (k x : String) :
    List (String × List String) :=
  if m.any (fun p => p.1 = k) then
    m.map (fun p => if p.1 = k then (p.1, setAdd p.2 x) else p)
  else m ++ [(k, [x])]

/-- The backlink loop of `buildLinkGraph`: each link of `src` that resolves
adds `src` to the target's backlink set; unresolved links are dropped. -/
def addBacklinks (files : List String) (src : String) :
    List String → LinkGraph → LinkGraph
  | [], g => g
  | l :: ls, g =>
    match resolveLink files l with
    | some t => addBacklinks files src ls { g with bwd := adjAddElem g.bwd t src }
    | none => addBacklinks files src ls g

/-- The per-file loop of `buildLinkGraph`: a readable file stores its raw
link set in `linkCache` and contributes backlinks; an unreadable file is
skipped. -/
def buildGraphGo (files : List String) : List VDoc → LinkGraph → LinkGraph
  | [], g => g
  | d :: ds, g =>
    match d.content with
    | none => buildGraphGo files ds g
    | some c =>
      let links := extractLinks c
      buildGraphGo files ds
        (addBacklinks files d.path links
          { g with fwd := adjSet g.fwd d.path (dedupKeepFirst links) })

/-- `buildLinkGraph` over a corpus, starting from cleared caches. -/
def buildLinkGraph (corpus : List VDoc) : LinkGraph :=
  buildGraphGo (corpusFiles corpus) corpus ⟨[], []⟩

/-- Total adjacency size, a bound on the BFS queue traffic. -/
def graphSize (g : LinkGraph) : Nat :=
  (g.fwd.map (fun p => p.2.length)).sum + (g.bwd.map (fun p => p.2.length)).sum

/-- The BFS loop of `isConnected`: pop an entry, succeed on the target,
drop it beyond the depth bound or when already visited, otherwise push all
`linkCache` and `backlinksCache` neighbours one level deeper.  Each
unvisited node is expanded at most once and every pushed entry is an
adjacency-list element, so at most `graphSize g + 1` entries are ever
popped; the fuel is instantiated above that bound and cannot run out. -/
def bfsGo (g : LinkGraph) (target : String) (maxDepth : Int) :
    Nat → List (String × Int) → List String → Bool
  | 0, _, _ => false
  | _ + 1, [], _ => false
  | fuel + 1, (file, depth) :: queue, visited =>
    if file = target then true
    else if depth ≥ maxDepth then bfsGo g target maxDepth fuel queue visited
    else if visited.contains file then bfsGo g target maxDepth fuel queue visited
    else
      let nbrs := adjGet g.fwd file ++ adjGet g.bwd file
      bfsGo g target maxDepth fuel
        (queue ++ nbrs.map (fun n => (n, depth + 1))) (file :: visited)

/-- `isConnected(file1, file2, maxDepth)`: true immediately on equal files,
false when the depth bound is non-positive, otherwise the bounded BFS. -/
def isConnected (g : LinkGraph) (file1 file2 : String) (maxDepth : Int) : Bool :=
  if file1 = file2 then true
  else if maxDepth ≤ 0 then false
  else bfsGo g file2 maxDepth (graphSize g + 2) [(file1, 0)] []

/-- A graph query result row. -/
structure GraphResult where
  filename : String
  path : String
  outgoingLinks : List String
  incomingLinks : List String
  tags : List JValue
  frontmatter : List (String × JValue)
deriving Repr

/-- The per-file loop of `graphSearch`: unreadable files are skipped; with
a (truthy) seed, files not connected to it within `maxDepth` are skipped;
without `includeOrphans`, files with empty outgoing and incoming sets are
skipped. -/
def graphSearchGo (g : LinkGraph) (maxDepth : Int) (startFile : Option String)
    (includeOrphans : Bool) : List VDoc → List GraphResult
  | [] => []
  | d :: ds =>
    match d.content with
    | none => graphSearchGo g maxDepth startFile includeOrphans ds
    | some c =>
      let outgoing := adjGet g.fwd d.path
      let incoming := adjGet g.bwd d.path
      let seedSkip : Bool :=
        match startFile with
        | some s => s ≠ "" && !isConnected g d.path s maxDepth
        | none => false
      if seedSkip then graphSearchGo g maxDepth startFile includeOrphans ds
      else if !includeOrphans && outgoing.isEmpty && incoming.isEmpty then
        graphSearchGo g maxDepth startFile includeOrphans ds
      else
        ⟨jsBasename d.path, d.path, outgoing, incoming, extractTags c,
          extractFrontmatter c⟩ ::
          graphSearchGo g maxDepth startFile includeOrphans ds

/-- `graphSearch(options)`: build the link graph, then filter and report
every document of the corpus. -/
def graphSearch (corpus : List VDoc) (maxDepth : Int) (startFile : Option String)
    (includeOrphans : Bool) : List GraphResult :=
  graphSearchGo (buildLinkGraph corpus) maxDepth startFile includeOrphans corpus

/-- The `searchType` field selector. -/
inductive SType where
  | content
  | filename
  | tags
  | links
  | frontmatter
deriving Repr, DecidableEq

/-- A match record of a search result. -/
structure FsMatch where
  line : Nat
  content : String
  context : String
deriving Repr, DecidableEq

/-- A content/fuzzy search result row (`matchRecords` embeds the source's
`matches` field, whose name is a Lean keyword). -/
structure FsResult where
  filename : String
  path : String
  matchRecords : List FsMatch
  frontmatter : List (String × JValue)
deriving Repr

/-- `'\n'.join` of a line slice. -/
def joinNl : List String → String
  | [] => ""
  | [x] => x
  | x :: y :: xs => x ++ "\n" ++ joinNl (y :: xs)

/-- `lines.slice(a, b).join('\n')` (`b` exclusive). -/
def sliceJoin (lines : List String) (a b : Nat) : String :=
  joinNl ((lines.drop a).take (b - a))

/-- The match-building loop of `searchFile`: every line containing the
query contributes one match record whose context spans `contextLines`
lines either side, clipped to the document. -/
def buildMatches (content query : String) (contextLines : Nat) : List FsMatch :=
  let lines := jsSplitLines content
  let ql := lowerStr query
  (List.range lines.length).filterMap (fun i =>
    let li := lines.getD i ""
    if jsIncludes (lowerStr li) ql then
      some ⟨i + 1, li,
        sliceJoin lines (i - contextLines)
          (min (lines.length - 1) (i + contextLines) + 1)⟩
    else none)

/-- `tags.some(tag => tag.toLowerCase().includes(q))`: short-circuiting;
reaching a non-string tag value throws (`.error`). -/
def tagsSome (ql : String) : List JValue → Except Unit Bool
  | [] => .ok false
  | .str s :: rest =>
    if jsIncludes (lowerStr s) ql then .ok true else tagsSome ql rest
  | _ :: _ => .error ()

/-- `searchFile`: the field test for the selected search type, then (for
content and filename searches with content inclusion) the match records.
`.error` models an exception escaping to the caller's catch. -/
def searchFile (filePath content query : String) (searchType : SType)
    (contextLines : Nat) (includeContent : Bool) :
    Except Unit (Option FsResult) :=
  let filename := jsBasename filePath
  let ql := lowerStr query
  let hit : Except Unit Bool :=
    match searchType with
    | .filename => .ok (jsIncludes (lowerStr filename) ql)
    | .tags => tagsSome ql (extractTags content)
    | .links => .ok ((extractLinks content).any (fun l => jsIncludes (lowerStr l) ql))
    | .frontmatter =>
      .ok (jsIncludes (lowerStr (stringifyFm (extractFrontmatter content))) ql)
    | .content => .ok (jsIncludes (lowerStr content) ql)
  match hit with
  | .error e => .error e
  | .ok false => .ok none
  | .ok true =>
    let isCF : Bool :=
      match searchType with
      | .content => true
      | .filename => true
      | _ => false
    let ms :=
      if includeContent && isCF then buildMatches content query contextLines
      else []
    .ok (some ⟨filename, filePath, ms, extractFrontmatter content⟩)

/-- The per-file loop of `search`: stop at the result cap, skip unreadable
files and files whose `searchFile` throws or misses. -/
def searchGo (query : String) (searchType : SType) (contextLines : Nat)
    (includeContent : Bool) (maxResults : Nat) :
    List VDoc → Nat → List FsResult
  | [], _ => []
  | d :: ds, count =>
    if count ≥ maxResults then []
    else
      match d.content with
      | none => searchGo query searchType contextLines includeContent maxResults ds count
      | some c =>
        match searchFile d.path c query searchType contextLines includeContent with
        | .error _ =>
          searchGo query searchType contextLines includeContent maxResults ds count
        | .ok none =>
          searchGo query searchType contextLines includeContent maxResults ds count
        | .ok (some r) =>
          r :: searchGo query searchType contextLines includeContent maxResults ds (count + 1)

/-- `search(options)` (defaults in the source: `maxResults = 20`,
`contextLines = 2`, `includeContent = true`, `searchType = 'content'`). -/
def search (corpus : List VDoc) (query : String) (maxResults contextLines : Nat)
    (includeContent : Bool) (searchType : SType) : List FsResult :=
  searchGo query searchType contextLines includeContent maxResults corpus 0

/-- The filename component of the fuzzy score: +100 for the lowercased
basename with the first `.md` occurrence removed equalling the query, +50
for containing it, +30 for containing every query token. -/
def fuzzyFilenameScore (file ql : String) (queryParts : List String) : Nat :=
  let filename := lowerStr (jsBasename file)
  (if jsReplaceFirst filename ".md" "" = ql then 100 else 0) +
    (if jsIncludes filename ql then 50 else 0) +
    (if queryParts.all (fun part => jsIncludes filename part) then 30 else 0)

/-- The content component of the fuzzy score: +20 for containing the query,
+10 for containing every query token. -/
def fuzzyContentScore (content ql : String) (queryParts : List String) : Nat :=
  let cl := lowerStr content
  (if jsIncludes cl ql then 20 else 0) +
    (if queryParts.all (fun part => jsIncludes cl part) then 10 else 0)

/-- The total fuzzy score of a document for a query. -/
def fuzzyScore (file content query : String) : Nat :=
  let ql := lowerStr query
  let parts := jsSplitWs ql
  fuzzyFilenameScore file ql parts + fuzzyContentScore content ql parts

/-- The snippet loop of `fuzzySearch`: matching lines with one line of
context either side, stopping after three records. -/
def fuzzyMatchesGo (lines : List String) (ql : String) (cnt : Nat) :
    List Nat → List FsMatch
  | [] => []
  | i :: is =>
    let li := lines.getD i ""
    if jsIncludes (lowerStr li) ql then
      let m : FsMatch :=
        ⟨i + 1, li, sliceJoin lines (i - 1) (min lines.length (i + 2))⟩
      if cnt + 1 ≥ 3 then [m] else m :: fuzzyMatchesGo lines ql (cnt + 1) is
    else fuzzyMatchesGo lines ql cnt is

/-- The up-to-three content snippets of a fuzzy result. -/
def fuzzyMatches (content ql : String) : List FsMatch :=
  let lines := jsSplitLines content
  fuzzyMatchesGo lines ql 0 (List.range lines.length)

/-- A `scored` entry of `fuzzySearch`. -/
structure ScoredEntry where
  file : String
  score : Nat
  result : FsResult
deriving Repr

/-- The scoring loop of `fuzzySearch`: unreadable files are skipped (their
filename score is discarded); a readable file with positive score yields a
scored result. -/
def fuzzyScoredGo (ql : String) (parts : List String) :
    List VDoc → List ScoredEntry
  | [] => []
  | d :: ds =>
    match d.content with
    | none => fuzzyScoredGo ql parts ds
    | some c =>
      let score := fuzzyFilenameScore d.path ql parts + fuzzyContentScore c ql parts
      if score > 0 then
        ⟨d.path, score,
          ⟨jsBasename d.path, d.path, fuzzyMatches c ql, extractFrontmatter c⟩⟩ ::
          fuzzyScoredGo ql parts ds
      else fuzzyScoredGo ql parts ds

/-- Stable insertion into a descending-score list: an element goes before
the first strictly smaller score, after earlier equal scores. -/
def insertDesc (x : ScoredEntry) : List ScoredEntry → List ScoredEntry
  | [] => [x]
  | y :: ys => if x.score ≥ y.score then x :: y :: ys else y :: insertDesc x ys

/-- `scored.sort((a, b) => b.score - a.score)`: ECMAScript sort is stable,
and a stable descending sort is extensionally unique, embedded here as a
stable insertion sort. -/
def sortByScoreDesc : List ScoredEntry → List ScoredEntry
  | [] => []
  | x :: xs => insertDesc x (sortByScoreDesc xs)

/-- The sorted, capped `scored` list of `fuzzySearch`. -/
def fuzzySearchScored (corpus : List VDoc) (query : String) (maxResults : Nat) :
    List ScoredEntry :=
  let ql := lowerStr query
  let parts := jsSplitWs ql
  (sortByScoreDesc (fuzzyScoredGo ql parts corpus)).take maxResults

/-- `fuzzySearch(query, maxResults)` (default `maxResults = 10`). -/
def fuzzySearch (corpus : List VDoc) (query : String) (maxResults : Nat) :
    List FsResult :=
  (fuzzySearchScored corpus query maxResults).map (fun e => e.result)

/-! Specification-side definitions (named from the spec's words, for
comparison with the embedded code) and concrete corpora used to settle
individual claims. -/

/-- Spec-side: a filename with the content extension (`.md` at the end)
stripped, as the fuzzy-score claim reads. -/
def stripMdSuffix (s : String) : String :=
  if endsWithL s.data ".md".data then ⟨s.data.take (s.data.length - 3)⟩ else s

/-- Spec-side: a body consisting of the given link targets, each written in
double-bracket syntax, concatenated. -/
def catLinks (ts : List String) : String :=
  ⟨(ts.map (fun t => '[' :: '[' :: (t.data ++ [']', ']']))).flatten⟩

/-- The three-document example corpus of the spec: `A.md` links to `B`,
`B.md` has no links, `C.md` links to a missing target. -/
def corpusABC : List VDoc :=
  [⟨"A.md", some "[[B]]"⟩, ⟨"B.md", some ""⟩, ⟨"C.md", some "[[Missing]]"⟩]

/-- A two-document corpus in which `A.md`'s only link resolves to `B.md`. -/
def corpusAB : List VDoc := [⟨"A.md", some "[[B]]"⟩, ⟨"B.md", some ""⟩]

/-- A corpus with an unreadable file (`B.md`) whose name still resolves a
link that would otherwise resolve to `notes/B.md`. -/
def corpusSteal : List VDoc :=
  [⟨"A.md", some "[[B]]"⟩, ⟨"B.md", none⟩, ⟨"notes/B.md", some ""⟩]

/-! General lemmas about the embedded primitives. -/

theorem containsSub_nil_pat (s : List Char) : containsSub [] s = true := by
  cases s <;> simp [containsSub, startsWithL]

theorem jsIncludes_empty (s : String) : jsIncludes s "" = true :=
  containsSub_nil_pat s.data

theorem mem_dedupKeepFirstGo {x : String} :
    ∀ {l seen}, x ∈ dedupKeepFirstGo seen l ↔ x ∈ l ∧ x ∉ seen := by
  intro l
  induction l with
  | nil => simp [dedupKeepFirstGo]
  | cons a as ih =>
    intro seen
    have hstep : dedupKeepFirstGo seen (a :: as) =
        if seen.contains a = true then dedupKeepFirstGo seen as
        else a :: dedupKeepFirstGo (a :: seen) as := rfl
    by_cases ha : a ∈ seen
    · rw [hstep, if_pos (by simpa using ha), ih]
      simp only [List.mem_cons]
      constructor
      · rintro ⟨h1, h2⟩
        exact ⟨Or.inr h1, h2⟩
      · rintro ⟨rfl | h1, h2⟩
        · exact absurd ha h2
        · exact ⟨h1, h2⟩
    · rw [hstep, if_neg (by simpa using ha)]
      simp only [List.mem_cons, ih]
      constructor
      · rintro (rfl | ⟨h1, h2⟩)
        · exact ⟨Or.inl rfl, ha⟩
        · exact ⟨Or.inr h1, fun hs => h2 (Or.inr hs)⟩
      · rintro ⟨rfl | h1, h2⟩
        · exact Or.inl rfl
        · rcases eq_or_ne x a with rfl | hxa
          · exact Or.inl rfl
          · exact Or.inr ⟨h1, fun hs => h2 ((hs.resolve_left hxa : x ∈ seen))⟩

theorem mem_dedupKeepFirst {x : String} {l : List String} :
    x ∈ dedupKeepFirst l ↔ x ∈ l := by
  simp [dedupKeepFirst, mem_dedupKeepFirstGo]

theorem adjGet_cons (p : String × List String) (ps : List (String × List String))
    (k : String) :
    adjGet (p :: ps) k = if p.1 = k then p.2 else adjGet ps k := rfl

theorem adjGet_map_set_self (m : List (String × List String)) (k : String)
    (v : List String) :
    adjGet (m.map (fun p => if p.1 = k then (k, v) else p)) k =
      if m.any (fun p => p.1 = k) then v else [] := by
  induction m with
  | nil => simp [adjGet]
  | cons p ps ih =>
    by_cases hp : p.1 = k
    · simp [adjGet_cons, hp]
    · simp only [List.map_cons, if_neg hp, adjGet_cons, List.any_cons]
      simp only [decide_eq_false hp, Bool.false_or]
      exact ih

theorem adjGet_map_set_other (m : List (String × List String)) (k k' : String)
    (v : List String) (hk : ¬ k' = k) :
    adjGet (m.map (fun p => if p.1 = k then (k, v) else p)) k' = adjGet m k' := by
  induction m with
  | nil => rfl
  | cons p ps ih =>
    by_cases hp : p.1 = k
    · have h1 : ¬ (k = k') := fun hc => hk hc.symm
      have h2 : ¬ (p.1 = k') := fun hc => hk (by rw [← hc, hp])
      simp only [List.map_cons, if_pos hp, adjGet_cons, h1, h2, if_false]
      exact ih
    · by_cases hq : p.1 = k'
      · simp only [List.map_cons, if_neg hp, adjGet_cons, if_pos hq]
      · simp only [List.map_cons, if_neg hp, adjGet_cons, if_neg hq]
        exact ih

theorem adjGet_append_single_ne (m : List (String × List String))
    (k k' : String) (v : List String) (hk : ¬ k = k') :
    adjGet (m ++ [(k, v)]) k' = adjGet m k' := by
  induction m with
  | nil => simp [adjGet_cons, adjGet, hk]
  | cons p ps ih =>
    by_cases hq : p.1 = k'
    · simp [adjGet_cons, hq]
    · simp only [List.cons_append, adjGet_cons, if_neg hq]
      exact ih

theorem adjGet_append_single_self (m : List (String × List String))
    (k : String) (v : List String) (h : ¬ m.any (fun p => p.1 = k) = true) :
    adjGet (m ++ [(k, v)]) k = v := by
  induction m with
  | nil => simp [adjGet_cons, adjGet]
  | cons p ps ih =>
    simp only [List.any_cons, Bool.or_eq_true, decide_eq_true_eq] at h
    push_neg at h
    simp only [List.cons_append, adjGet_cons, if_neg h.1]
    exact ih (by simpa using h.2)

theorem adjGet_eq_nil_of_no_key (m : List (String × List String)) (k : String)
    (h : ¬ m.any (fun p => p.1 = k) = true) : adjGet m k = [] := by
  induction m with
  | nil => rfl
  | cons p ps ih =>
    simp only [List.any_cons, Bool.or_eq_true, decide_eq_true_eq] at h
    push_neg at h
    simp [adjGet_cons, h.1, ih (by simpa using h.2)]

theorem adjGet_adjSet (m : List (String × List String)) (k k' : String)
    (v : List String) :
    adjGet (adjSet m k v) k' = if k' = k then v else adjGet m k' := by
  unfold adjSet
  by_cases hm : m.any (fun p => p.1 = k) = true
  · rw [if_pos hm]
    by_cases hk : k' = k
    · subst hk
      rw [adjGet_map_set_self, hm]
      simp
    · rw [adjGet_map_set_other m k k' v hk, if_neg hk]
  · rw [if_neg hm]
    by_cases hk : k' = k
    · subst hk
      rw [adjGet_append_single_self m k' v hm, if_pos rfl]
    · rw [adjGet_append_single_ne m k k' v (fun hc => hk hc.symm), if_neg hk]

theorem mem_setAdd (s : List String) (x y : String) :
    y ∈ setAdd s x ↔ y ∈ s ∨ y = x := by
  unfold setAdd
  by_cases hc : s.contains x = true
  · have hx : x ∈ s := by simpa using hc
    rw [if_pos hc]
    constructor
    · exact Or.inl
    · rintro (h | rfl)
      · exact h
      · exact hx
  · rw [if_neg hc]
    simp [List.mem_append]

theorem adjGet_addElem_map_self (m : List (String × List String)) (k x : String) :
    adjGet (m.map (fun p => if p.1 = k then (p.1, setAdd p.2 x) else p)) k =
      if m.any (fun p => p.1 = k) then setAdd (adjGet m k) x else [] := by
  induction m with
  | nil => simp [adjGet]
  | cons p ps ih =>
    by_cases hp : p.1 = k
    · simp [adjGet_cons, hp]
    · simp only [List.map_cons, if_neg hp, adjGet_cons, if_neg hp, List.any_cons]
      simp only [decide_eq_false hp, Bool.false_or]
      exact ih

theorem adjGet_addElem_map_other (m : List (String × List String))
    (k k' x : String) (hk : ¬ k' = k) :
    adjGet (m.map (fun p => if p.1 = k then (p.1, setAdd p.2 x) else p)) k' =
      adjGet m k' := by
  induction m with
  | nil => rfl
  | cons p ps ih =>
    by_cases hp : p.1 = k
    · have h2 : ¬ (p.1 = k') := fun hc => hk (by rw [← hc, hp])
      simp only [List.map_cons, if_pos hp, adjGet_cons, if_neg h2]
      exact ih
    · by_cases hq : p.1 = k'
      · simp only [List.map_cons, if_neg hp, adjGet_cons, if_pos hq]
      · simp only [List.map_cons, if_neg hp, adjGet_cons, if_neg hq]
        exact ih

theorem mem_adjGet_adjAddElem (m : List (String × List String))
    (k x k' y : String) :
    y ∈ adjGet (adjAddElem m k x) k' ↔
      y ∈ adjGet m k' ∨ (k' = k ∧ y = x) := by
  unfold adjAddElem
  by_cases hm : m.any (fun p => p.1 = k) = true
  · rw [if_pos hm]
    by_cases hk : k' = k
    · subst hk
      rw [adjGet_addElem_map_self, if_pos hm, mem_setAdd]
      simp
    · rw [adjGet_addElem_map_other m k k' x hk]
      simp [hk]
  · rw [if_neg hm]
    by_cases hk : k' = k
    · subst hk
      rw [adjGet_append_single_self m k' [x] hm,
        adjGet_eq_nil_of_no_key m k' hm]
      simp
    · rw [adjGet_append_single_ne m k k' [x] (fun hc => hk hc.symm)]
      simp [hk]

theorem addBacklinks_fwd (files : List String) (src : String) :
    ∀ ls g, (addBacklinks files src ls g).fwd = g.fwd := by
  intro ls
  induction ls with
  | nil => intro g; rfl
  | cons l ls ih =>
    intro g
    unfold addBacklinks
    cases resolveLink files l with
    | none => exact ih g
    | some t => exact ih _

theorem mem_addBacklinks_bwd (files : List String) (src : String) :
    ∀ ls g b y, y ∈ adjGet (addBacklinks files src ls g).bwd b ↔
      y ∈ adjGet g.bwd b ∨
        (y = src ∧ ∃ l ∈ ls, resolveLink files l = some b) := by
  intro ls
  induction ls with
  | nil => intro g b y; simp [addBacklinks]
  | cons l ls ih =>
    intro g b y
    unfold addBacklinks
    cases hr : resolveLink files l with
    | none =>
      rw [ih]
      simp only [List.mem_cons]
      constructor
      · rintro (h | ⟨rfl, l', hl', hres⟩)
        · exact Or.inl h
        · exact Or.inr ⟨rfl, l', Or.inr hl', hres⟩
      · rintro (h | ⟨rfl, l', rfl | hl', hres⟩)
        · exact Or.inl h
        · rw [hr] at hres; cases hres
        · exact Or.inr ⟨rfl, l', hl', hres⟩
    | some t =>
      rw [ih]
      simp only [mem_adjGet_adjAddElem, List.mem_cons]
      constructor
      · rintro ((h | ⟨rfl, rfl⟩) | ⟨rfl, l', hl', hres⟩)
        · exact Or.inl h
        · exact Or.inr ⟨rfl, l, Or.inl rfl, hr⟩
        · exact Or.inr ⟨rfl, l', Or.inr hl', hres⟩
      · rintro (h | ⟨rfl, l', rfl | hl', hres⟩)
        · exact Or.inl (Or.inl h)
        · rw [hr] at hres
          cases hres
          exact Or.inl (Or.inr ⟨rfl, rfl⟩)
        · exact Or.inr ⟨rfl, l', hl', hres⟩

theorem buildGraphGo_cons_none (files : List String) (d : VDoc) (ds : List VDoc)
    (g : LinkGraph) (hc : d.content = none) :
    buildGraphGo files (d :: ds) g = buildGraphGo files ds g := by
  simp only [buildGraphGo]
  rw [hc]

theorem buildGraphGo_cons_some (files : List String) (d : VDoc) (ds : List VDoc)
    (g : LinkGraph) (c : String) (hc : d.content = some c) :
    buildGraphGo files (d :: ds) g =
      buildGraphGo files ds (addBacklinks files d.path (extractLinks c)
        { g with fwd := adjSet g.fwd d.path (dedupKeepFirst (extractLinks c)) }) := by
  simp only [buildGraphGo]
  rw [hc]

theorem buildGraphGo_bwd_mem (files : List String) :
    ∀ ds g b y, y ∈ adjGet (buildGraphGo files ds g).bwd b ↔
      y ∈ adjGet g.bwd b ∨
        ∃ d ∈ ds, y = d.path ∧ ∃ c, d.content = some c ∧
          ∃ l ∈ extractLinks c, resolveLink files l = some b := by
  intro ds
  induction ds with
  | nil => intro g b y; simp [buildGraphGo]
  | cons d ds ih =>
    intro g b y
    cases hc : d.content with
    | none =>
      rw [buildGraphGo_cons_none files d ds g hc]
      rw [ih]
      simp only [List.mem_cons]
      constructor
      · rintro (h | ⟨d', hd', rest⟩)
        · exact Or.inl h
        · exact Or.inr ⟨d', Or.inr hd', rest⟩
      · rintro (h | ⟨d', rfl | hd', rfl, c, hcc, rest⟩)
        · exact Or.inl h
        · rw [hc] at hcc; cases hcc
        · exact Or.inr ⟨d', hd', rfl, c, hcc, rest⟩
    | some c =>
      rw [buildGraphGo_cons_some files d ds g c hc]
      rw [ih, mem_addBacklinks_bwd]
      simp only [List.mem_cons]
      constructor
      · rintro ((h | ⟨rfl, l, hl, hres⟩) | ⟨d', hd', rest⟩)
        · exact Or.inl h
        · exact Or.inr ⟨d, Or.inl rfl, rfl, c, hc, l, hl, hres⟩
        · exact Or.inr ⟨d', Or.inr hd', rest⟩
      · rintro (h | ⟨d', rfl | hd', rfl, c', hcc, l, hl, hres⟩)
        · exact Or.inl (Or.inl h)
        · rw [hc] at hcc
          cases hcc
          exact Or.inl (Or.inr ⟨rfl, l, hl, hres⟩)
        · exact Or.inr ⟨d', hd', rfl, c', hcc, l, hl, hres⟩

theorem buildGraphGo_fwd_skip (files : List String) :
    ∀ ds g a, (∀ d ∈ ds, d.path = a → d.content = none) →
      adjGet (buildGraphGo files ds g).fwd a = adjGet g.fwd a := by
  intro ds
  induction ds with
  | nil => intro g a _; rfl
  | cons d ds ih =>
    intro g a h
    cases hc : d.content with
    | none =>
      rw [buildGraphGo_cons_none files d ds g hc]
      exact ih g a (fun d' hd' => h d' (List.mem_cons_of_mem _ hd'))
    | some c =>
      have hda : ¬ d.path = a := fun hpa => by
        have := h d (List.mem_cons_self _ _) hpa
        rw [hc] at this; cases this
      rw [buildGraphGo_cons_some files d ds g c hc]
      rw [ih _ a (fun d' hd' => h d' (List.mem_cons_of_mem _ hd'))]
      have hfwd : (addBacklinks files d.path (extractLinks c)
          { g with fwd := adjSet g.fwd d.path (dedupKeepFirst (extractLinks c)) }).fwd =
          adjSet g.fwd d.path (dedupKeepFirst (extractLinks c)) :=
        addBacklinks_fwd files d.path (extractLinks c) _
      rw [hfwd, adjGet_adjSet]
      rw [if_neg (fun hc' => hda hc'.symm)]

theorem buildGraphGo_fwd_found (files : List String) :
    ∀ ds g d c, d ∈ ds → d.content = some c → (ds.map VDoc.path).Nodup →
      adjGet (buildGraphGo files ds g).fwd d.path =
        dedupKeepFirst (extractLinks c) := by
  intro ds
  induction ds with
  | nil => intro g d c hd; cases hd
  | cons d0 ds ih =>
    intro g d c hd hc hnd
    simp only [List.map_cons, List.nodup_cons] at hnd
    rcases List.mem_cons.mp hd with rfl | hd'
    · rw [buildGraphGo_cons_some files d ds g c hc]
      rw [buildGraphGo_fwd_skip files ds _ d.path (fun d' hd' hpa =>
        absurd (hpa ▸ (List.mem_map_of_mem VDoc.path hd')) hnd.1)]
      have hfwd : (addBacklinks files d.path (extractLinks c)
          { g with fwd := adjSet g.fwd d.path (dedupKeepFirst (extractLinks c)) }).fwd =
          adjSet g.fwd d.path (dedupKeepFirst (extractLinks c)) :=
        addBacklinks_fwd files d.path (extractLinks c) _
      rw [hfwd, adjGet_adjSet, if_pos rfl]
    · cases hc0 : d0.content with
      | none =>
        rw [buildGraphGo_cons_none files d0 ds g hc0]
        exact ih g d c hd' hc hnd.2
      | some c0 =>
        rw [buildGraphGo_cons_some files d0 ds g c0 hc0]
        exact ih _ d c hd' hc hnd.2

theorem linkAt_some_length {s : List Char} {p : String × List Char}
    (h : linkAt s = some p) : p.2.length + 2 ≤ s.length := by
  unfold linkAt at h
  split at h
  · dsimp only [] at h
    split at h
    · cases h
      simp
    · cases h
  · cases h

theorem takeWhile_append_all {p : Char → Bool} {l₁ : List Char} (l₂ : List Char)
    (h : ∀ a ∈ l₁, p a = true) :
    (l₁ ++ l₂).takeWhile p = l₁ ++ l₂.takeWhile p := by
  induction l₁ with
  | nil => rfl
  | cons x xs ih =>
    have hx := h x (List.mem_cons_self _ _)
    rw [List.cons_append, List.takeWhile_cons, hx, if_pos rfl,
      ih (fun a ha => h a (List.mem_cons_of_mem _ ha))]
    rfl

theorem linkAt_chunk (t : String) (rest : List Char) (hne : t.data ≠ [])
    (hnb : ']' ∉ t.data) :
    linkAt ('[' :: '[' :: (t.data ++ ']' :: ']' :: rest)) = some (t, rest) := by
  have htw : (t.data ++ ']' :: ']' :: rest).takeWhile (fun c => c ≠ ']') = t.data := by
    rw [takeWhile_append_all (p := fun c => decide (c ≠ ']')) _ (fun a ha => by
      simp only [decide_eq_true_eq]
      exact fun hc => hnb (hc ▸ ha))]
    simp [List.takeWhile_cons]
  have hstep : linkAt ('[' :: '[' :: (t.data ++ ']' :: ']' :: rest)) =
      (if !((t.data ++ ']' :: ']' :: rest).takeWhile (fun c => c ≠ ']')).isEmpty &&
          startsWithL ((t.data ++ ']' :: ']' :: rest).drop
            ((t.data ++ ']' :: ']' :: rest).takeWhile (fun c => c ≠ ']')).length)
            [']', ']'] then
        some ((⟨(t.data ++ ']' :: ']' :: rest).takeWhile (fun c => c ≠ ']')⟩ : String),
          (t.data ++ ']' :: ']' :: rest).drop
            (((t.data ++ ']' :: ']' :: rest).takeWhile (fun c => c ≠ ']')).length + 2))
      else none) := rfl
  rw [hstep, htw]
  have hdropL : (t.data ++ ']' :: ']' :: rest).drop t.data.length =
      ']' :: ']' :: rest := List.drop_left t.data _
  have hdrop2 : (t.data ++ ']' :: ']' :: rest).drop (t.data.length + 2) = rest := by
    rw [show t.data ++ ']' :: ']' :: rest = (t.data ++ [']', ']']) ++ rest by simp]
    rw [show t.data.length + 2 = (t.data ++ [']', ']']).length by simp]
    exact List.drop_left _ _
  rw [hdropL, hdrop2]
  rw [if_pos (by simp [startsWithL, hne])]

theorem extractLinksGo_catLinks :
    ∀ ts : List String, (∀ t ∈ ts, t.data ≠ [] ∧ ']' ∉ t.data) →
      ∀ f, (catLinks ts).data.length < f →
        extractLinksGo f (catLinks ts).data = ts := by
  intro ts
  induction ts with
  | nil =>
    intro _ f hf
    have h0 : (catLinks []).data = [] := rfl
    rw [h0] at hf ⊢
    cases f with
    | zero => exact absurd hf (by omega)
    | succ f => rfl
  | cons t ts ih =>
    intro h f hf
    have hdata : (catLinks (t :: ts)).data =
        '[' :: '[' :: (t.data ++ ']' :: ']' :: (catLinks ts).data) := by
      simp [catLinks]
    rw [hdata] at hf ⊢
    cases f with
    | zero => exact absurd hf (by omega)
    | succ f =>
      simp only [extractLinksGo]
      rw [linkAt_chunk t _ (h t (List.mem_cons_self _ _)).1
        (h t (List.mem_cons_self _ _)).2]
      have hlen : (catLinks ts).data.length < f := by
        simp only [List.length_cons, List.length_append] at hf
        omega
      show t :: extractLinksGo f (catLinks ts).data = t :: ts
      rw [ih (fun u hu => h u (List.mem_cons_of_mem _ hu)) f hlen]

/-- C4 amended: link extraction returns one entry per double-bracket
occurrence, in order, duplicates retained, and each entry is the full inner
text verbatim — the `|` alias part included, not stripped.  Stated for a
body that is any sequence of double-bracket links (targets nonempty and
free of `]`, aliases and duplicates allowed). -/
theorem extractLinks_catLinks (ts : List String)
    (h : ∀ t ∈ ts, t.data ≠ [] ∧ ']' ∉ t.data) :
    extractLinks (catLinks ts) = ts :=
  extractLinksGo_catLinks ts h _ (Nat.lt_succ_self _)

/-- C4 witness: the duplicated aliased link body evaluated through the
amended theorem. -/
theorem extractLinks_catLinks_witness :
    (∀ t ∈ ["Target|alias", "Target|alias"], t.data ≠ [] ∧ ']' ∉ t.data) ∧
      extractLinks (catLinks ["Target|alias", "Target|alias"]) =
        ["Target|alias", "Target|alias"] :=
  ⟨by decide, extractLinks_catLinks ["Target|alias", "Target|alias"] (by decide)⟩

/-- C2: after the graph is built over a corpus with distinct paths, the
backlink map is exactly the transpose of the stored forward map restricted
to resolvable targets — `a` lies in `b`'s backlink set iff some link
reference in `a`'s forward set resolves to `b`; a reference that does not
resolve never produces a backlink entry. -/
theorem backlinks_transpose (corpus : List VDoc)
    (hnd : (corpusFiles corpus).Nodup) (a b : String) :
    a ∈ adjGet (buildLinkGraph corpus).bwd b ↔
      ∃ l ∈ adjGet (buildLinkGraph corpus).fwd a,
        resolveLink (corpusFiles corpus) l = some b := by
  have hnd' : (corpus.map VDoc.path).Nodup := by
    simpa [corpusFiles] using hnd
  have hdef : buildLinkGraph corpus =
      buildGraphGo (corpusFiles corpus) corpus ⟨[], []⟩ := rfl
  constructor
  · intro hmem
    rw [hdef] at hmem ⊢
    rw [buildGraphGo_bwd_mem] at hmem
    rcases hmem with h0 | ⟨d, hd, rfl, c, hc, l, hl, hres⟩
    · simp [adjGet] at h0
    · rw [buildGraphGo_fwd_found (corpusFiles corpus) corpus ⟨[], []⟩ d c hd hc hnd']
      exact ⟨l, mem_dedupKeepFirst.mpr hl, hres⟩
  · rintro ⟨l, hl, hres⟩
    rw [hdef] at hl ⊢
    rw [buildGraphGo_bwd_mem]
    by_cases hex : ∃ d, d ∈ corpus ∧ d.path = a ∧ ∃ c, d.content = some c
    · obtain ⟨d, hd, hpa, c, hc⟩ := hex
      subst hpa
      rw [buildGraphGo_fwd_found (corpusFiles corpus) corpus ⟨[], []⟩ d c hd hc hnd'] at hl
      exact Or.inr ⟨d, hd, rfl, c, hc, l, mem_dedupKeepFirst.mp hl, hres⟩
    · have hskip : ∀ d ∈ corpus, d.path = a → d.content = none := by
        intro d hd hpa
        cases hcd : d.content with
        | none => rfl
        | some c => exact absurd ⟨d, hd, hpa, c, hcd⟩ hex
      rw [buildGraphGo_fwd_skip (corpusFiles corpus) corpus ⟨[], []⟩ a hskip] at hl
      simp [adjGet] at hl

/-- C2 witness: the transpose equivalence applied on a concrete corpus. -/
theorem backlinks_transpose_witness :
    (corpusFiles corpusAB).Nodup ∧
      ("A.md" ∈ adjGet (buildLinkGraph corpusAB).bwd "B.md" ↔
        ∃ l ∈ adjGet (buildLinkGraph corpusAB).fwd "A.md",
          resolveLink (corpusFiles corpusAB) l = some "B.md") :=
  ⟨by decide, backlinks_transpose corpusAB (by decide) "A.md" "B.md"⟩

theorem mem_insertDesc (x a : ScoredEntry) :
    ∀ l, a ∈ insertDesc x l ↔ a = x ∨ a ∈ l := by
  intro l
  induction l with
  | nil => simp [insertDesc]
  | cons y ys ih =>
    unfold insertDesc
    by_cases hxy : x.score ≥ y.score
    · rw [if_pos hxy]
      simp [List.mem_cons]
    · rw [if_neg hxy]
      simp only [List.mem_cons, ih]
      tauto

theorem pairwise_insertDesc (x : ScoredEntry) :
    ∀ l, l.Pairwise (fun a b : ScoredEntry => b.score ≤ a.score) →
      (insertDesc x l).Pairwise (fun a b => b.score ≤ a.score) := by
  intro l
  induction l with
  | nil => intro _; simp [insertDesc]
  | cons y ys ih =>
    intro hp
    rw [List.pairwise_cons] at hp
    obtain ⟨hy, hys⟩ := hp
    unfold insertDesc
    by_cases hxy : x.score ≥ y.score
    · rw [if_pos hxy]
      refine List.Pairwise.cons ?_ (List.Pairwise.cons hy hys)
      intro b hb
      rcases List.mem_cons.mp hb with rfl | hb
      · exact hxy
      · exact le_trans (hy b hb) hxy
    · rw [if_neg hxy]
      refine List.Pairwise.cons ?_ (ih hys)
      intro b hb
      rcases (mem_insertDesc x b ys).mp hb with rfl | hb
      · exact le_of_not_le hxy
      · exact hy b hb

theorem pairwise_sortByScoreDesc :
    ∀ l, (sortByScoreDesc l).Pairwise (fun a b : ScoredEntry => b.score ≤ a.score) := by
  intro l
  induction l with
  | nil => simp [sortByScoreDesc]
  | cons x xs ih => exact pairwise_insertDesc x _ ih

theorem pairwise_fuzzySearchScored (corpus : List VDoc) (query : String)
    (maxR : Nat) :
    (fuzzySearchScored corpus query maxR).Pairwise
      (fun a b : ScoredEntry => b.score ≤ a.score) :=
  List.Pairwise.sublist (List.take_sublist _ _) (pairwise_sortByScoreDesc _)

theorem fuzzyScore_exact_ge (file content query : String)
    (hname : jsReplaceFirst (lowerStr (jsBasename file)) ".md" "" = lowerStr query) :
    100 ≤ fuzzyScore file content query := by
  simp only [fuzzyScore, fuzzyFilenameScore, fuzzyContentScore]
  rw [if_pos hname]
  split_ifs <;> omega

/-- C5 amended: every document whose lowercased filename with the first
occurrence of `.md` removed (the code removes the first occurrence, not the
trailing extension) equals the lowercased query scores at least 100, and in
the sorted scored list any entry scoring at least 100 is placed strictly
above any entry scoring at most 30 — in particular above every document
whose only signals are content-based (at most 20 + 10). -/
theorem fuzzy_exact_rank (corpus : List VDoc) (query : String) (maxR : Nat)
    (file content : String)
    (hname : jsReplaceFirst (lowerStr (jsBasename file)) ".md" "" = lowerStr query)
    (i j : Fin (fuzzySearchScored corpus query maxR).length)
    (hi : 100 ≤ ((fuzzySearchScored corpus query maxR).get i).score)
    (hj : ((fuzzySearchScored corpus query maxR).get j).score ≤ 30) :
    100 ≤ fuzzyScore file content query ∧ (i : Nat) < (j : Nat) := by
  refine ⟨fuzzyScore_exact_ge file content query hname, ?_⟩
  have hpw := pairwise_fuzzySearchScored corpus query maxR
  rw [List.pairwise_iff_get] at hpw
  by_contra hij
  push_neg at hij
  rcases Nat.eq_or_lt_of_le hij with heq | hlt
  · have hfe : i = j := Fin.ext heq.symm
    rw [hfe] at hi
    omega
  · have := hpw j i hlt
    omega

/-- C5 witness: the ranking theorem applied on a two-document corpus where
`b.md` matches the query exactly by name and `o.md` only by content. -/
theorem fuzzy_exact_rank_witness :
    jsReplaceFirst (lowerStr (jsBasename "b.md")) ".md" "" = lowerStr "b" ∧
      (100 ≤ fuzzyScore "b.md" "" "b" ∧
        ((⟨0, by decide⟩ :
            Fin (fuzzySearchScored [⟨"b.md", some ""⟩, ⟨"o.md", some "b"⟩]
              "b" 10).length) : Nat) <
          ((⟨1, by decide⟩ :
            Fin (fuzzySearchScored [⟨"b.md", some ""⟩, ⟨"o.md", some "b"⟩]
              "b" 10).length) : Nat)) :=
  ⟨by decide, fuzzy_exact_rank [⟨"b.md", some ""⟩, ⟨"o.md", some "b"⟩] "b" 10
    "b.md" "" (by decide) ⟨0, by decide⟩ ⟨1, by decide⟩ (by decide) (by decide)⟩

theorem searchFile_filename_eq (path c query : String) (cl : Nat) (ic : Bool) :
    searchFile path c query .filename cl ic =
      if jsIncludes (lowerStr (jsBasename path)) (lowerStr query) then
        .ok (some ⟨jsBasename path, path,
          (if ic then buildMatches c query cl else []), extractFrontmatter c⟩)
      else .ok none := by
  cases hq : jsIncludes (lowerStr (jsBasename path)) (lowerStr query) with
  | false => simp [searchFile, hq]
  | true => simp [searchFile, hq]

theorem searchGo_filename_mem (query : String) (cl : Nat) (ic : Bool)
    (maxR : Nat) :
    ∀ ds count r, r ∈ searchGo query .filename cl ic maxR ds count →
      jsIncludes (lowerStr (jsBasename r.path)) (lowerStr query) = true ∧
        ∃ d ∈ ds, ∃ c, d.content = some c ∧ r.path = d.path ∧
          r.matchRecords = (if ic then buildMatches c query cl else []) := by
  intro ds
  induction ds with
  | nil => intro count r h; simp [searchGo] at h
  | cons d ds ih =>
    intro count r h
    by_cases hcap : count ≥ maxR
    · rw [show searchGo query .filename cl ic maxR (d :: ds) count = [] by
        simp [searchGo, hcap]] at h
      cases h
    · cases hc : d.content with
      | none =>
        rw [show searchGo query .filename cl ic maxR (d :: ds) count =
            searchGo query .filename cl ic maxR ds count by
          simp [searchGo, hcap, hc]] at h
        obtain ⟨h1, d', hd', rest⟩ := ih count r h
        exact ⟨h1, d', List.mem_cons_of_mem _ hd', rest⟩
      | some c =>
        cases hq : jsIncludes (lowerStr (jsBasename d.path)) (lowerStr query) with
        | false =>
          rw [show searchGo query .filename cl ic maxR (d :: ds) count =
              searchGo query .filename cl ic maxR ds count by
            simp [searchGo, hcap, hc, searchFile_filename_eq, hq]] at h
          obtain ⟨h1, d', hd', rest⟩ := ih count r h
          exact ⟨h1, d', List.mem_cons_of_mem _ hd', rest⟩
        | true =>
          rw [show searchGo query .filename cl ic maxR (d :: ds) count =
              (⟨jsBasename d.path, d.path,
                (if ic then buildMatches c query cl else []),
                extractFrontmatter c⟩ : FsResult) ::
                searchGo query .filename cl ic maxR ds (count + 1) by
            simp [searchGo, hcap, hc, searchFile_filename_eq, hq]] at h
          rcases List.mem_cons.mp h with rfl | h
          · exact ⟨hq, d, List.mem_cons_self _ _, c, hc, rfl, rfl⟩
          · obtain ⟨h1, d', hd', rest⟩ := ih (count + 1) r h
            exact ⟨h1, d', List.mem_cons_of_mem _ hd', rest⟩

/-- C6 amended: a filename-field search returns exactly the documents whose
filename case-insensitively contains the query, and each returned document
carries the content-line match records when content inclusion is requested
(one record per content line containing the query), empty records only when
content inclusion is off or no content line matches. -/
theorem filename_search_characterization (corpus : List VDoc) (query : String)
    (maxResults contextLines : Nat) (ic : Bool) (r : FsResult)
    (hr : r ∈ search corpus query maxResults contextLines ic SType.filename) :
    jsIncludes (lowerStr (jsBasename r.path)) (lowerStr query) = true ∧
      ∃ d ∈ corpus, ∃ c, d.content = some c ∧ r.path = d.path ∧
        r.matchRecords = (if ic then buildMatches c query contextLines else []) :=
  searchGo_filename_mem query contextLines ic maxResults corpus 0 r hr

/-- C6 witness: the characterization applied to the single result of a
concrete filename search. -/
theorem filename_search_characterization_witness :
    (⟨"notes.md", "notes.md", [], []⟩ : FsResult) ∈
        search [⟨"notes.md", some "abc"⟩] "no" 20 2 false .filename ∧
      (jsIncludes (lowerStr (jsBasename "notes.md")) (lowerStr "no") = true ∧
        ∃ d ∈ [(⟨"notes.md", some "abc"⟩ : VDoc)], ∃ c, d.content = some c ∧
          ("notes.md" : String) = d.path ∧
          ([] : List FsMatch) =
            (if false then buildMatches c "no" 2 else [])) := by
  have hmem : (⟨"notes.md", "notes.md", [], []⟩ : FsResult) ∈
      search [⟨"notes.md", some "abc"⟩] "no" 20 2 false .filename := by
    rw [show search [⟨"notes.md", some "abc"⟩] "no" 20 2 false .filename =
      [⟨"notes.md", "notes.md", [], []⟩] from rfl]
    exact List.mem_singleton.mpr rfl
  exact ⟨hmem,
    filename_search_characterization [⟨"notes.md", some "abc"⟩] "no" 20 2
      false ⟨"notes.md", "notes.md", [], []⟩ hmem⟩

theorem searchGo_cap (query : String) (st : SType) (cl : Nat) (ic : Bool)
    (maxR : Nat) (ds : List VDoc) (count : Nat) (hcap : count ≥ maxR) :
    searchGo query st cl ic maxR ds count = [] := by
  cases ds with
  | nil => rfl
  | cons d ds => simp [searchGo, hcap]

theorem searchGo_cons_none (query : String) (st : SType) (cl : Nat) (ic : Bool)
    (maxR : Nat) (d : VDoc) (ds : List VDoc) (count : Nat)
    (hcap : ¬ count ≥ maxR) (hc : d.content = none) :
    searchGo query st cl ic maxR (d :: ds) count =
      searchGo query st cl ic maxR ds count := by
  simp only [searchGo]
  rw [if_neg hcap, hc]

theorem searchGo_cons_some (query : String) (st : SType) (cl : Nat) (ic : Bool)
    (maxR : Nat) (d : VDoc) (ds : List VDoc) (count : Nat)
    (hcap : ¬ count ≥ maxR) (c : String) (hc : d.content = some c) :
    searchGo query st cl ic maxR (d :: ds) count =
      (match searchFile d.path c query st cl ic with
       | .error _ => searchGo query st cl ic maxR ds count
       | .ok none => searchGo query st cl ic maxR ds count
       | .ok (some r) => r :: searchGo query st cl ic maxR ds (count + 1)) := by
  simp only [searchGo]
  rw [if_neg hcap, hc]

theorem searchFile_content_empty (path c : String) (cl : Nat) (ic : Bool) :
    searchFile path c "" .content cl ic =
      .ok (some ⟨jsBasename path, path,
        (if ic then buildMatches c "" cl else []), extractFrontmatter c⟩) := by
  have h := jsIncludes_empty (lowerStr c)
  have h0 : lowerStr "" = "" := rfl
  simp [searchFile, h0, h]

theorem searchGo_empty_query (cl : Nat) (ic : Bool) (maxR : Nat) :
    ∀ ds count, (searchGo "" .content cl ic maxR ds count).map (fun r => r.path) =
      ((ds.filter readable).map (fun d => d.path)).take (maxR - count) := by
  intro ds
  induction ds with
  | nil => intro count; simp [searchGo]
  | cons d ds ih =>
    intro count
    by_cases hcap : count ≥ maxR
    · rw [searchGo_cap _ _ _ _ _ _ _ hcap]
      have h0 : maxR - count = 0 := by omega
      simp [h0]
    · cases hc : d.content with
      | none =>
        rw [searchGo_cons_none _ _ _ _ _ _ _ _ hcap hc, ih count]
        have hf : (d :: ds).filter readable = ds.filter readable := by
          simp [List.filter_cons, readable, hc]
        rw [hf]
      | some c =>
        rw [searchGo_cons_some _ _ _ _ _ _ _ _ hcap c hc,
          searchFile_content_empty]
        have hf : (d :: ds).filter readable = d :: ds.filter readable := by
          simp [List.filter_cons, readable, hc]
        rw [hf, List.map_cons]
        have hmr : maxR - count = (maxR - (count + 1)) + 1 := by omega
        rw [List.map_cons, hmr, List.take_succ_cons, ih (count + 1)]

theorem fuzzyScoredGo_cons_none (ql : String) (parts : List String) (d : VDoc)
    (ds : List VDoc) (hc : d.content = none) :
    fuzzyScoredGo ql parts (d :: ds) = fuzzyScoredGo ql parts ds := by
  simp only [fuzzyScoredGo]
  rw [hc]

theorem fuzzyScoredGo_cons_some (ql : String) (parts : List String) (d : VDoc)
    (ds : List VDoc) (c : String) (hc : d.content = some c) :
    fuzzyScoredGo ql parts (d :: ds) =
      (if fuzzyFilenameScore d.path ql parts + fuzzyContentScore c ql parts > 0 then
        (⟨d.path, fuzzyFilenameScore d.path ql parts + fuzzyContentScore c ql parts,
          ⟨jsBasename d.path, d.path, fuzzyMatches c ql, extractFrontmatter c⟩⟩ :
            ScoredEntry) :: fuzzyScoredGo ql parts ds
      else fuzzyScoredGo ql parts ds) := by
  simp only [fuzzyScoredGo]
  rw [hc]

theorem fuzzyContentScore_empty (c : String) : fuzzyContentScore c "" [""] = 30 := by
  simp [fuzzyContentScore, jsIncludes_empty]

theorem fuzzyScoredGo_empty_length :
    ∀ ds, (fuzzyScoredGo "" [""] ds).length = (ds.filter readable).length := by
  intro ds
  induction ds with
  | nil => rfl
  | cons d ds ih =>
    cases hc : d.content with
    | none =>
      rw [fuzzyScoredGo_cons_none _ _ _ _ hc, ih]
      have hf : (d :: ds).filter readable = ds.filter readable := by
        simp [List.filter_cons, readable, hc]
      rw [hf]
    | some c =>
      rw [fuzzyScoredGo_cons_some _ _ _ _ c hc]
      rw [if_pos (by rw [fuzzyContentScore_empty]; omega)]
      have hf : (d :: ds).filter readable = d :: ds.filter readable := by
        simp [List.filter_cons, readable, hc]
      rw [hf]
      simp [ih]

theorem length_insertDesc (x : ScoredEntry) :
    ∀ l, (insertDesc x l).length = l.length + 1 := by
  intro l
  induction l with
  | nil => rfl
  | cons y ys ih =>
    unfold insertDesc
    by_cases hxy : x.score ≥ y.score
    · rw [if_pos hxy]
      rfl
    · rw [if_neg hxy]
      simp [ih]

theorem length_sortByScoreDesc : ∀ l, (sortByScoreDesc l).length = l.length := by
  intro l
  induction l with
  | nil => rfl
  | cons x xs ih =>
    show (insertDesc x (sortByScoreDesc xs)).length = xs.length + 1
    rw [length_insertDesc, ih]

theorem graphSearchGo_cons_none (g : LinkGraph) (md : Int) (sf : Option String)
    (io : Bool) (d : VDoc) (ds : List VDoc) (hc : d.content = none) :
    graphSearchGo g md sf io (d :: ds) = graphSearchGo g md sf io ds := by
  simp only [graphSearchGo]
  rw [hc]

theorem graphSearchGo_cons_some (g : LinkGraph) (md : Int) (sf : Option String)
    (io : Bool) (d : VDoc) (ds : List VDoc) (c : String) (hc : d.content = some c) :
    graphSearchGo g md sf io (d :: ds) =
      (if (match sf with
            | some s => s ≠ "" && !isConnected g d.path s md
            | none => false) then graphSearchGo g md sf io ds
       else if !io && (adjGet g.fwd d.path).isEmpty && (adjGet g.bwd d.path).isEmpty then
         graphSearchGo g md sf io ds
       else ⟨jsBasename d.path, d.path, adjGet g.fwd d.path, adjGet g.bwd d.path,
         extractTags c, extractFrontmatter c⟩ :: graphSearchGo g md sf io ds) := by
  simp only [graphSearchGo]
  rw [hc]

theorem isConnected_nonpos (g : LinkGraph) (a b : String) (md : Int)
    (hab : ¬ a = b) (hmd : md ≤ 0) : isConnected g a b md = false := by
  unfold isConnected
  rw [if_neg hab, if_pos hmd]

theorem graphSearchGo_nonpos_seed (g : LinkGraph) (s : String) (md : Int)
    (hs : s ≠ "") (hmd : md ≤ 0) :
    ∀ ds, (graphSearchGo g md (some s) true ds).map (fun r => r.path) =
      (ds.filter (fun d => readable d && d.path = s)).map (fun d => d.path) := by
  intro ds
  induction ds with
  | nil => rfl
  | cons d ds ih =>
    cases hc : d.content with
    | none =>
      rw [graphSearchGo_cons_none _ _ _ _ _ _ hc, ih]
      have hf : (d :: ds).filter (fun d => readable d && d.path = s) =
          ds.filter (fun d => readable d && d.path = s) := by
        simp [List.filter_cons, readable, hc]
      rw [hf]
    | some c =>
      rw [graphSearchGo_cons_some _ _ _ _ _ _ c hc]
      by_cases hps : d.path = s
      · have hcon : isConnected g d.path s md = true := by
          unfold isConnected
          rw [if_pos hps]
        rw [if_neg (by simp [hcon]), if_neg (by simp)]
        have hf : (d :: ds).filter (fun d => readable d && d.path = s) =
            d :: ds.filter (fun d => readable d && d.path = s) := by
          simp [List.filter_cons, readable, hc, hps]
        rw [hf, List.map_cons, List.map_cons, ih]
      · have hcon : isConnected g d.path s md = false :=
          isConnected_nonpos g d.path s md hps hmd
        rw [if_pos (by simp [hcon, hs]), ih]
        have hf : (d :: ds).filter (fun d => readable d && d.path = s) =
            ds.filter (fun d => readable d && d.path = s) := by
          simp [List.filter_cons, readable, hc, hps]
        rw [hf]

/-- C7 amended: `search`, `fuzzySearch` and `graphSearch` perform no
parameter validation.  An empty query string is accepted: content search
then matches every readable document (every string contains the empty
substring) and fuzzy search scores every readable document positively; a
negative traversal depth is accepted: the connectivity filter then keeps
exactly the seed document.  No failure is surfaced in any of the three. -/
theorem invalid_params_scan (corpus : List VDoc) (cl : Nat) (ic : Bool)
    (maxR : Nat) (s : String) (md : Int) (hs : s ≠ "") (hmd : md ≤ 0) :
    (search corpus "" maxR cl ic .content).map (fun r => r.path) =
        ((corpus.filter readable).map (fun d => d.path)).take maxR ∧
      (fuzzySearch corpus "" maxR).length =
        min maxR (corpus.filter readable).length ∧
      (graphSearch corpus md (some s) true).map (fun r => r.path) =
        (corpus.filter (fun d => readable d && d.path = s)).map
          (fun d => d.path) := by
  refine ⟨?_, ?_, ?_⟩
  · have h := searchGo_empty_query cl ic maxR corpus 0
    simpa [search] using h
  · have h1 : lowerStr "" = "" := rfl
    have h2 : jsSplitWs "" = [""] := rfl
    simp only [fuzzySearch, fuzzySearchScored, h1, h2, List.length_map,
      List.length_take, length_sortByScoreDesc, fuzzyScoredGo_empty_length]
  · exact graphSearchGo_nonpos_seed (buildLinkGraph corpus) s md hs hmd corpus

/-- C7 witness: the no-validation behaviour on a one-document corpus with
an empty query and depth `-1`. -/
theorem invalid_params_scan_witness :
    ("a.md" : String) ≠ "" ∧ (-1 : Int) ≤ 0 ∧
      ((search [⟨"a.md", some "h"⟩] "" 20 2 true .content).map (fun r => r.path) =
          (([(⟨"a.md", some "h"⟩ : VDoc)].filter readable).map
            (fun d => d.path)).take 20 ∧
        (fuzzySearch [⟨"a.md", some "h"⟩] "" 20).length =
          min 20 ([(⟨"a.md", some "h"⟩ : VDoc)].filter readable).length ∧
        (graphSearch [⟨"a.md", some "h"⟩] (-1) (some "a.md") true).map
            (fun r => r.path) =
          ([(⟨"a.md", some "h"⟩ : VDoc)].filter
            (fun d => readable d && d.path = "a.md")).map (fun d => d.path)) :=
  ⟨by decide, by decide,
    invalid_params_scan [⟨"a.md", some "h"⟩] 2 true 20 "a.md" (-1)
      (by decide) (by decide)⟩

theorem searchGo_filter_readable (query : String) (st : SType) (cl : Nat)
    (ic : Bool) (maxR : Nat) :
    ∀ ds count, searchGo query st cl ic maxR ds count =
      searchGo query st cl ic maxR (ds.filter readable) count := by
  intro ds
  induction ds with
  | nil => intro count; rfl
  | cons d ds ih =>
    intro count
    by_cases hcap : count ≥ maxR
    · rw [searchGo_cap _ _ _ _ _ _ _ hcap, searchGo_cap _ _ _ _ _ _ _ hcap]
    · cases hc : d.content with
      | none =>
        have hf : (d :: ds).filter readable = ds.filter readable := by
          simp [List.filter_cons, readable, hc]
        rw [hf, searchGo_cons_none _ _ _ _ _ _ _ _ hcap hc]
        exact ih count
      | some c =>
        have hf : (d :: ds).filter readable = d :: ds.filter readable := by
          simp [List.filter_cons, readable, hc]
        rw [hf, searchGo_cons_some _ _ _ _ _ _ _ _ hcap c hc,
          searchGo_cons_some _ _ _ _ _ _ _ _ hcap c hc]
        cases searchFile d.path c query st cl ic with
        | error e => exact ih count
        | ok o =>
          cases o with
          | none => exact ih count
          | some r => rw [ih (count + 1)]

theorem fuzzyScoredGo_filter_readable (ql : String) (parts : List String) :
    ∀ ds, fuzzyScoredGo ql parts ds = fuzzyScoredGo ql parts (ds.filter readable) := by
  intro ds
  induction ds with
  | nil => rfl
  | cons d ds ih =>
    cases hc : d.content with
    | none =>
      have hf : (d :: ds).filter readable = ds.filter readable := by
        simp [List.filter_cons, readable, hc]
      rw [hf, fuzzyScoredGo_cons_none _ _ _ _ hc]
      exact ih
    | some c =>
      have hf : (d :: ds).filter readable = d :: ds.filter readable := by
        simp [List.filter_cons, readable, hc]
      rw [hf, fuzzyScoredGo_cons_some _ _ _ _ c hc,
        fuzzyScoredGo_cons_some _ _ _ _ c hc]
      by_cases hsc : fuzzyFilenameScore d.path ql parts + fuzzyContentScore c ql parts > 0
      · rw [if_pos hsc, if_pos hsc, ih]
      · rw [if_neg hsc, if_neg hsc]
        exact ih

theorem graphSearchGo_mem_readable (g : LinkGraph) (md : Int)
    (sf : Option String) (io : Bool) :
    ∀ ds r, r ∈ graphSearchGo g md sf io ds →
      ∃ d ∈ ds, d.content.isSome ∧ r.path = d.path := by
  intro ds
  induction ds with
  | nil => intro r h; cases h
  | cons d ds ih =>
    intro r h
    cases hc : d.content with
    | none =>
      rw [graphSearchGo_cons_none _ _ _ _ _ _ hc] at h
      obtain ⟨d', hd', rest⟩ := ih r h
      exact ⟨d', List.mem_cons_of_mem _ hd', rest⟩
    | some c =>
      rw [graphSearchGo_cons_some _ _ _ _ _ _ c hc] at h
      split at h
      · obtain ⟨d', hd', rest⟩ := ih r h
        exact ⟨d', List.mem_cons_of_mem _ hd', rest⟩
      · split at h
        · obtain ⟨d', hd', rest⟩ := ih r h
          exact ⟨d', List.mem_cons_of_mem _ hd', rest⟩
        · rcases List.mem_cons.mp h with rfl | h
          · exact ⟨d, List.mem_cons_self _ _, by rw [hc]; rfl, rfl⟩
          · obtain ⟨d', hd', rest⟩ := ih r h
            exact ⟨d', List.mem_cons_of_mem _ hd', rest⟩

/-- C8 amended: a document whose read fails is skipped and never aborts the
operation — `search` and `fuzzySearch` return exactly the results computed
over the readable documents alone, and every `graphSearch` result is a
readable document; however, an unreadable file's name still participates in
link resolution during graph construction, so `graphSearch` output can
differ from a run over the readable corpus alone. -/
theorem read_failure_skip (corpus : List VDoc) (query : String) (maxR cl : Nat)
    (ic : Bool) (st : SType) (md : Int) (sf : Option String) (io : Bool)
    (r : GraphResult) (hr : r ∈ graphSearch corpus md sf io) :
    search corpus query maxR cl ic st =
        search (corpus.filter readable) query maxR cl ic st ∧
      fuzzySearch corpus query maxR =
        fuzzySearch (corpus.filter readable) query maxR ∧
      ∃ d ∈ corpus, d.content.isSome ∧ r.path = d.path := by
  refine ⟨?_, ?_, ?_⟩
  · exact searchGo_filter_readable query st cl ic maxR corpus 0
  · simp only [fuzzySearch, fuzzySearchScored]
    rw [fuzzyScoredGo_filter_readable]
  · exact graphSearchGo_mem_readable (buildLinkGraph corpus) md sf io corpus r hr

/-- C8 witness: the skip behaviour applied to a corpus with one unreadable
document. -/
theorem read_failure_skip_witness :
    (⟨"a.md", "a.md", [], [], [], []⟩ : GraphResult) ∈
        graphSearch [⟨"a.md", some ""⟩, ⟨"b.md", none⟩] 2 none true ∧
      (search [⟨"a.md", some ""⟩, ⟨"b.md", none⟩] "x" 20 2 true .content =
          search ([⟨"a.md", some ""⟩, ⟨"b.md", none⟩].filter readable) "x" 20 2
            true .content ∧
        fuzzySearch [⟨"a.md", some ""⟩, ⟨"b.md", none⟩] "x" 20 =
          fuzzySearch ([⟨"a.md", some ""⟩, ⟨"b.md", none⟩].filter readable) "x" 20 ∧
        ∃ d ∈ [(⟨"a.md", some ""⟩ : VDoc), ⟨"b.md", none⟩], d.content.isSome ∧
          ("a.md" : String) = d.path) := by
  have hmem : (⟨"a.md", "a.md", [], [], [], []⟩ : GraphResult) ∈
      graphSearch [⟨"a.md", some ""⟩, ⟨"b.md", none⟩] 2 none true := by
    rw [show graphSearch [⟨"a.md", some ""⟩, ⟨"b.md", none⟩] 2 none true =
      [⟨"a.md", "a.md", [], [], [], []⟩] from rfl]
    exact List.mem_singleton.mpr rfl
  exact ⟨hmem,
    read_failure_skip [⟨"a.md", some ""⟩, ⟨"b.md", none⟩] "x" 20 2 true
      .content 2 none true ⟨"a.md", "a.md", [], [], [], []⟩ hmem⟩

theorem hashAt_starts {s : List Char} {p : String × List Char}
    (h : hashAt s = some p) : startsWithL p.1.data ['#'] = true := by
  unfold hashAt at h
  split at h
  · dsimp only [] at h
    split at h
    · cases h
    · cases h
      simp [startsWithL]
  · cases h

theorem mem_extractHashGo_starts :
    ∀ fuel s t, t ∈ extractHashGo fuel s → startsWithL t.data ['#'] = true := by
  intro fuel
  induction fuel with
  | zero => intro s t h; simp [extractHashGo] at h
  | succ f ih =>
    intro s t h
    cases s with
    | nil => simp [extractHashGo] at h
    | cons c cs =>
      cases hh : hashAt (c :: cs) with
      | none =>
        rw [show extractHashGo (f + 1) (c :: cs) = extractHashGo f cs by
          simp only [extractHashGo]; rw [hh]] at h
        exact ih cs t h
      | some p =>
        obtain ⟨t0, rest⟩ := p
        rw [show extractHashGo (f + 1) (c :: cs) = t0 :: extractHashGo f rest by
          simp only [extractHashGo]; rw [hh]] at h
        rcases List.mem_cons.mp h with rfl | h
        · exact hashAt_starts hh
        · exact ih rest t h

theorem tagsSome_characterization (ql : String) :
    ∀ tags : List JValue, (∀ v ∈ tags, ∃ s, v = JValue.str s) →
      (tagsSome ql tags = .ok true ↔
        ∃ s, JValue.str s ∈ tags ∧ jsIncludes (lowerStr s) ql = true) ∧
      (tagsSome ql tags = .ok true ∨ tagsSome ql tags = .ok false) := by
  intro tags
  induction tags with
  | nil =>
    intro _
    refine ⟨⟨fun h => by simp [tagsSome] at h, ?_⟩, Or.inr rfl⟩
    rintro ⟨s, hs, _⟩
    cases hs
  | cons v vs ih =>
    intro hstr
    obtain ⟨s0, rfl⟩ := hstr v (List.mem_cons_self _ _)
    have ihh := ih (fun u hu => hstr u (List.mem_cons_of_mem _ hu))
    by_cases hq : jsIncludes (lowerStr s0) ql = true
    · refine ⟨⟨fun _ => ⟨s0, List.mem_cons_self _ _, hq⟩, fun _ => ?_⟩,
        Or.inl ?_⟩ <;> simp [tagsSome, hq]
    · have hstep : tagsSome ql (JValue.str s0 :: vs) = tagsSome ql vs := by
        simp [tagsSome, hq]
      refine ⟨?_, by rw [hstep]; exact ihh.2⟩
      rw [hstep, ihh.1]
      constructor
      · rintro ⟨s, hs, hin⟩
        exact ⟨s, List.mem_cons_of_mem _ hs, hin⟩
      · rintro ⟨s, hs, hin⟩
        rcases List.mem_cons.mp hs with heq | hs
        · injection heq with h0
          subst h0
          exact absurd hin hq
        · exact ⟨s, hs, hin⟩

theorem searchFile_tags_eq (path content query : String) (cl : Nat) (ic : Bool) :
    searchFile path content query .tags cl ic =
      match tagsSome (lowerStr query) (extractTags content) with
      | .error e => .error e
      | .ok false => .ok none
      | .ok true =>
        .ok (some ⟨jsBasename path, path, [], extractFrontmatter content⟩) := by
  cases h : tagsSome (lowerStr query) (extractTags content) with
  | error e => simp [searchFile, h]
  | ok b => cases b <;> simp [searchFile, h]

/-- C10: inline hash tags are stored with their leading `#` (every inline
extraction entry starts with `#`) while frontmatter `tags` entries are
stored verbatim without one, so the same word tagged both ways yields two
distinct entries in the tag set; the tags-field search then matches by
case-insensitive substring containment against these stored forms. -/
theorem tags_storage_and_search (contentA t : String)
    (ht : t ∈ extractHashTags contentA) (path content query : String)
    (cl : Nat) (ic : Bool)
    (hstr : ∀ v ∈ extractTags content, ∃ s, v = JValue.str s) :
    startsWithL t.data ['#'] = true ∧
      (extractTags "---\ntags: [\"work\"]\n---\n#work" =
          [JValue.str "work", JValue.str "#work"] ∧
        ("work" : String) ≠ "#work") ∧
      ((∃ r, searchFile path content query .tags cl ic = .ok (some r)) ↔
        ∃ s, JValue.str s ∈ extractTags content ∧
          jsIncludes (lowerStr s) (lowerStr query) = true) := by
  refine ⟨mem_extractHashGo_starts _ _ t ht, ⟨rfl, by decide⟩, ?_⟩
  have h2 := tagsSome_characterization (lowerStr query) (extractTags content) hstr
  rw [searchFile_tags_eq]
  rcases h2.2 with htrue | hfalse
  · rw [htrue]
    exact ⟨fun _ => h2.1.mp htrue, fun _ => ⟨_, rfl⟩⟩
  · rw [hfalse]
    constructor
    · rintro ⟨r, hr⟩
      simp at hr
    · intro hex
      have := h2.1.mpr hex
      rw [hfalse] at this
      simp at this

/-- C10 witness: the tag facts applied to the concrete document with
frontmatter `tags: ["work"]` and inline `#work`, searched for `ORK`. -/
theorem tags_storage_and_search_witness :
    ("#work" : String) ∈ extractHashTags "#work" ∧
      (∀ v ∈ extractTags "---\ntags: [\"work\"]\n---\n#work",
        ∃ s, v = JValue.str s) ∧
      (startsWithL "#work".data ['#'] = true ∧
        (extractTags "---\ntags: [\"work\"]\n---\n#work" =
            [JValue.str "work", JValue.str "#work"] ∧
          ("work" : String) ≠ "#work") ∧
        ((∃ r, searchFile "Meeting.md" "---\ntags: [\"work\"]\n---\n#work" "ORK"
            .tags 2 true = .ok (some r)) ↔
          ∃ s, JValue.str s ∈ extractTags "---\ntags: [\"work\"]\n---\n#work" ∧
            jsIncludes (lowerStr s) (lowerStr "ORK") = true)) := by
  have hm : ("#work" : String) ∈ extractHashTags "#work" := by decide
  have hstr : ∀ v ∈ extractTags "---\ntags: [\"work\"]\n---\n#work",
      ∃ s, v = JValue.str s := by
    intro v hv
    rw [show extractTags "---\ntags: [\"work\"]\n---\n#work" =
      [JValue.str "work", JValue.str "#work"] from rfl] at hv
    rcases List.mem_cons.mp hv with rfl | hv
    · exact ⟨"work", rfl⟩
    · rcases List.mem_cons.mp hv with rfl | hv
      · exact ⟨"#work", rfl⟩
      · cases hv
  exact ⟨hm, hstr,
    tags_storage_and_search "#work" "#work" hm "Meeting.md"
      "---\ntags: [\"work\"]\n---\n#work" "ORK" 2 true hstr⟩

/-- C9: for every corpus and documents `a ≠ b`, `isConnected(a, a, 0)` is
true and `isConnected(a, b, 0)` is false. -/
theorem isConnected_depth_zero (corpus : List VDoc) (a b : String)
    (hab : a ≠ b) :
    isConnected (buildLinkGraph corpus) a a 0 = true ∧
      isConnected (buildLinkGraph corpus) a b 0 = false := by
  refine ⟨?_, ?_⟩
  · simp [isConnected]
  · simp [isConnected, hab]

/-- C9 witness: the depth-zero connectivity facts on a concrete corpus. -/
theorem isConnected_depth_zero_witness :
    ("A.md" : String) ≠ "B.md" ∧
      (isConnected (buildLinkGraph corpusAB) "A.md" "A.md" 0 = true ∧
        isConnected (buildLinkGraph corpusAB) "A.md" "B.md" 0 = false) :=
  ⟨by decide, isConnected_depth_zero corpusAB "A.md" "B.md" (by decide)⟩

/-- C1 counterexample: on the spec's three-document corpus,
`graphSearch` with `includeOrphans = false` returns all three documents,
not only `A.md` and `B.md` — `C.md`'s unresolved link still counts as an
outgoing link for the orphan filter. -/
theorem graphSearch_orphan_example_counterexample :
    (graphSearch corpusABC 2 none false).map (fun r => r.path) =
        ["A.md", "B.md", "C.md"] ∧
      (graphSearch corpusABC 2 none false).map (fun r => r.path) ≠
        ["A.md", "B.md"] := by decide

/-- C1 amended: on the spec's three-document corpus `graphSearch` returns
all three documents for both values of `includeOrphans`, because the
forward cache stores the raw (possibly unresolved) link reference of
`C.md`, which does not resolve to any corpus file. -/
theorem graphSearch_orphan_example_amended :
    (graphSearch corpusABC 2 none false).map (fun r => r.path) =
        ["A.md", "B.md", "C.md"] ∧
      (graphSearch corpusABC 2 none true).map (fun r => r.path) =
        ["A.md", "B.md", "C.md"] ∧
      adjGet (buildLinkGraph corpusABC).fwd "C.md" = ["Missing"] ∧
      resolveLink (corpusFiles corpusABC) "Missing" = none := by decide

/-- C3: on a corpus where `A.md`'s only link resolves to `B.md`, the
breadth-first check is asymmetric — `isConnected(A, B, 1)` is false
(the forward cache holds the raw reference `B`, which never equals the
document key `B.md`) while `isConnected(B, A, 1)` is true through the
backlink edge. -/
theorem isConnected_forward_edge_bug :
    extractLinks "[[B]]" = ["B"] ∧
      resolveLink (corpusFiles corpusAB) "B" = some "B.md" ∧
      isConnected (buildLinkGraph corpusAB) "A.md" "B.md" 1 = false ∧
      isConnected (buildLinkGraph corpusAB) "B.md" "A.md" 1 = true := by decide

/-- C4 counterexample: the alias separator is not stripped — the extracted
entry for a `[[Target|alias]]` occurrence is the full inner text. -/
theorem extractLinks_alias_counterexample :
    extractLinks "see [[Target|alias]]" = ["Target|alias"] ∧
      extractLinks "see [[Target|alias]]" ≠ ["Target"] := by decide

/-- C5 counterexample: for the file `a.md.x.md`, whose filename with the
content extension stripped is `a.md.x`, the fuzzy score for the query
`a.md.x` is 80, below the claimed 100 — the code removes the first
occurrence of `.md`, not the extension. -/
theorem fuzzy_exact_score_counterexample :
    stripMdSuffix (lowerStr (jsBasename "a.md.x.md")) = "a.md.x" ∧
      lowerStr "a.md.x" = "a.md.x" ∧
      fuzzyScore "a.md.x.md" "" "a.md.x" = 80 ∧
      ¬ 100 ≤ fuzzyScore "a.md.x.md" "" "a.md.x" := by decide

/-- C6 counterexample: a filename-field search with content inclusion
returns one match record per content line containing the query, not zero
records. -/
theorem filename_search_matchrecords_counterexample :
    (search [⟨"notes.md", some "my notes here"⟩] "notes" 20 2 true .filename).map
        (fun r => (r.path, r.matchRecords)) =
      [("notes.md", [⟨1, "my notes here", "my notes here"⟩])] ∧
    (search [⟨"notes.md", some "my notes here"⟩] "notes" 20 2 true .filename).map
        (fun r => r.matchRecords.length) ≠ [0] := by decide

/-- C7 counterexample: an empty query string and a negative traversal
depth are accepted — all three operations scan the corpus and return
results instead of failing. -/
theorem invalid_params_accepted_counterexample :
    (search [⟨"a.md", some "hello"⟩] "" 20 2 true .content).map
        (fun r => r.path) = ["a.md"] ∧
      (fuzzySearch [⟨"a.md", some "hello"⟩] "" 10).map (fun r => r.path) =
        ["a.md"] ∧
      (graphSearch [⟨"a.md", some "hello"⟩] (-1) none true).map
        (fun r => r.path) = ["a.md"] := by decide

/-- C8 counterexample: `graphSearch` on a corpus with an unreadable `B.md`
is not the result computed over the readable documents alone — the
unreadable file's name still captures the resolution of the link `B`, so
`notes/B.md` loses its backlink and is dropped as an orphan. -/
theorem read_failure_graph_counterexample :
    (graphSearch corpusSteal 2 none false).map (fun r => r.path) = ["A.md"] ∧
      (graphSearch (corpusSteal.filter readable) 2 none false).map
          (fun r => r.path) = ["A.md", "notes/B.md"] ∧
      (graphSearch corpusSteal 2 none false).map (fun r => r.path) ≠
        (graphSearch (corpusSteal.filter readable) 2 none false).map
          (fun r => r.path) := by decide

end FilesystemSearch
